import Mathlib

/-!
Verification of the 1-billion-row-challenge Go implementation (parallel
variant in `src/main.go`, scalar byte search in `src/simd_generic.go`).

Bytes are modelled as `Nat` (values below 256 in real inputs), the 64-bit
FNV hash as `Nat` reduced modulo `2 ^ 64`, and the `int32` fields of the
per-station aggregate as `Int` reduced into `[-2^31, 2^31)` where overflow
is possible (the running `sum`).  Go slices become `List Nat`; a nil
`*stats` pointer becomes `Option stats`; a Go `panic` becomes `none` in an
`Option`-valued result.
-/

/-- `2 ^ 64`, the modulus of Go's `uint64` arithmetic. -/
def pow64 : Nat := 18446744073709551616

/-- Go `uint64` addition (used for `size`/`count` bookkeeping). -/
def add64 (a b : Nat) : Nat := (a + b) % pow64

/-- Reduce an integer into the `int32` range `[-2^31, 2^31)`, the result of
Go's wrapping 32-bit arithmetic. -/
def wrap32 (x : Int) : Int := (x + 2147483648) % 4294967296 - 2147483648

/-- Go `int32` addition with wraparound (`s.sum += temp`). -/
def add32 (a b : Int) : Int := wrap32 (a + b)

/-- `func min(a, b int32) int32` from src/main.go. -/
def goMin (a b : Int) : Int := if a < b then a else b

/-- `func max(a, b int32) int32` from src/main.go. -/
def goMax (a b : Int) : Int := if a > b then a else b

/-- `type stats struct` from src/main.go: per-station aggregate. -/
structure stats where
  min : Int
  max : Int
  sum : Int
  count : Nat
deriving DecidableEq, Repr

/-- `type item struct` from src/main.go (parallel variant): one hash-table
slot holding the stored hash, the key bytes and the aggregate pointer
(`none` = nil = empty slot). -/
structure item where
  hash : Nat
  key : List Nat
  value : Option stats
deriving DecidableEq, Repr

instance : Inhabited item := ⟨⟨0, [], none⟩⟩

/-- `type hashtable struct` from src/main.go. -/
structure hashtable where
  items : List item
  size : Nat
deriving Repr

/-- `fnvOffset` from src/main.go. -/
def fnvOffset : Nat := 14695981039346656037

/-- `fnvPrime` from src/main.go. -/
def fnvPrime : Nat := 1099511628211

/-- `func newFnvHash() fnvHash` from src/main.go. -/
def newFnvHash : Nat := fnvOffset

/-- `func hashByte(h fnvHash, b byte) fnvHash` from src/main.go:
multiply by the prime modulo `2^64`, then XOR with the zero-extended byte. -/
def hashByte (h b : Nat) : Nat := (h * fnvPrime) % pow64 ^^^ b % 256

/-- Byte-wise FNV-1a accumulation over a byte range, starting from an
arbitrary accumulator state. -/
def hashBytes (h : Nat) (l : List Nat) : Nat := l.foldl hashByte h

/-- The hash of a whole key, as recomputed from its bytes. -/
def fnvOf (k : List Nat) : Nat := hashBytes newFnvHash k

/-- `func findByte(data []byte, start int, end int, target byte) int`
from src/simd_generic.go: scalar first-match scan over `data[start:end]`. -/
def findByte (data : List Nat) (start e target : Nat) : Nat :=
  if h : start < e then
    if data.getD start 0 = target then start else findByte data (start + 1) e target
  else e
termination_by e - start
decreasing_by omega

/-- `func bytesToFixedPointInt(bytes []byte) int32` from src/main.go.
Indexing uses `getD` with default `0`; the claims only concern in-bounds
well-shaped inputs.  All intermediate values fit in `int32` for any byte
values, so no wraparound is modelled. -/
def bytesToFixedPointInt (bytes : List Nat) : Int :=
  let negative := bytes.getD 0 0 = 45
  let idx := if negative then 1 else 0
  let val : Int := (bytes.getD idx 0 : Int) - 48
  let idx := idx + 1
  let p : Int × Nat :=
    if bytes.getD idx 0 ≠ 46 then (val * 10 + ((bytes.getD idx 0 : Int) - 48), idx + 1)
    else (val, idx)
  let val := p.1
  let idx := p.2 + 1
  let val := val * 10 + ((bytes.getD idx 0 : Int) - 48)
  if negative then -val else val

/-- The probe loop of `func (ht *hashtable) get` from src/main.go, returning
the index of the slot whose key bytes equal `key` (the slot whose `*stats`
the caller mutates in place), `none` on an empty slot or a full wrap.
`fuel` is the slot count; the wrap check fires before fuel can run out. -/
def probeGet (items : List item) (key : List Nat) (index orig : Nat) : Nat → Option Nat
  | 0 => none
  | fuel + 1 =>
    let it := items.getD index default
    match it.value with
    | none => none
    | some _ =>
      if it.key = key then some index
      else
        let index' := (index + 1) % items.length
        if index' = orig then none else probeGet items key index' orig fuel

/-- `func (ht *hashtable) get(hash fnvHash, key []byte) *stats` reduced to
the index of the matching slot. -/
def hashtable.getIdx (ht : hashtable) (hash : Nat) (key : List Nat) : Option Nat :=
  probeGet ht.items key (hash % ht.items.length) (hash % ht.items.length) ht.items.length

/-- `func (ht *hashtable) get(hash fnvHash, key []byte) *stats` from
src/main.go: the value stored at the slot found by the probe loop. -/
def hashtable.get (ht : hashtable) (hash : Nat) (key : List Nat) : Option stats :=
  match ht.getIdx hash key with
  | some j => (ht.items.getD j default).value
  | none => none

/-- The probe loop of `func (ht *hashtable) add` from src/main.go.  On the
first empty slot store `(hash, key, value)` (flag `true`: a new slot was
filled, `size++`); on a matching key overwrite the value (flag `false`);
`none` models the `panic("Hashtable is full")` on a full wrap. -/
def probeAdd (items : List item) (hash : Nat) (key : List Nat) (v : stats) (index orig : Nat) :
    Nat → Option (List item × Bool)
  | 0 => none
  | fuel + 1 =>
    let it := items.getD index default
    match it.value with
    | none => some (items.set index ⟨hash, key, some v⟩, true)
    | some _ =>
      if it.key = key then some (items.set index ⟨it.hash, it.key, some v⟩, false)
      else
        let index' := (index + 1) % items.length
        if index' = orig then none else probeAdd items hash key v index' orig fuel

/-- `func (ht *hashtable) add(hash fnvHash, key []byte, v *stats)` from
src/main.go; `none` models the panic on a full table. -/
def hashtable.add (ht : hashtable) (hash : Nat) (key : List Nat) (v : stats) : Option hashtable :=
  match probeAdd ht.items hash key v (hash % ht.items.length) (hash % ht.items.length)
      ht.items.length with
  | some (items', true) => some ⟨items', add64 ht.size 1⟩
  | some (items', false) => some ⟨items', ht.size⟩
  | none => none

/-- `func NewHashTable(numBuckets uint64) *hashtable` from src/main.go. -/
def NewHashTable (numBuckets : Nat) : hashtable := ⟨List.replicate numBuckets default, 0⟩

/-- The four in-place mutations of an existing aggregate in the worker loop:
`s.min = min(s.min, temp); s.max = max(s.max, temp); s.sum += temp; s.count++`. -/
def updStats (s : stats) (temp : Int) : stats :=
  ⟨goMin s.min temp, goMax s.max temp, add32 s.sum temp, add64 s.count 1⟩

/-- In-place mutation through the `*stats` returned by `get`: replace the
aggregate stored at slot `j`. -/
def updateSlotItems (items : List item) (j : Nat) (temp : Int) : List item :=
  let it := items.getD j default
  items.set j ⟨it.hash, it.key, it.value.map (fun s => updStats s temp)⟩

/-- Lines 445–453 of src/main.go: look the station up, insert a fresh
aggregate `{temp, temp, temp, 1}` on a miss, mutate in place on a hit. -/
def recordStep (res : hashtable) (hash : Nat) (station : List Nat) (temp : Int) :
    Option hashtable :=
  match res.getIdx hash station with
  | some j => some ⟨updateSlotItems res.items j temp, res.size⟩
  | none => res.add hash station ⟨temp, temp, temp, 1⟩

/-- The in-place combination of two aggregates in `mergeHashTables`:
`s.min = min(s.min, item.value.min); … ; s.sum += item.value.sum; s.count += item.value.count`. -/
def mergeCombine (s v : stats) : stats :=
  ⟨goMin s.min v.min, goMax s.max v.max, add32 s.sum v.sum, add64 s.count v.count⟩

/-- Mutation through the `*stats` returned by `get` during merge. -/
def mergeSlotItems (items : List item) (j : Nat) (v : stats) : List item :=
  let it := items.getD j default
  items.set j ⟨it.hash, it.key, it.value.map (fun s => mergeCombine s v)⟩

/-- The body of the inner loop of `func mergeHashTables` from src/main.go:
skip empty slots, look the key up with the slot's stored hash, insert a
copy on a miss, combine in place on a hit. -/
def mergeItem (res : hashtable) (it : item) : Option hashtable :=
  match it.value with
  | none => some res
  | some v =>
    match res.getIdx it.hash it.key with
    | some j => some ⟨mergeSlotItems res.items j v, res.size⟩
    | none => res.add it.hash it.key ⟨v.min, v.max, v.sum, v.count⟩

/-- `func mergeHashTables(tables []*hashtable) *hashtable` from src/main.go;
`none` models a panic of the inner `add`. -/
def mergeHashTables (tables : List hashtable) : Option hashtable :=
  tables.foldl
    (fun acc t => t.items.foldl (fun acc it => acc.bind (fun r => mergeItem r it)) acc)
    (some (NewHashTable (1 <<< 16)))

/-- Number of bytes skipped by the line-end scan
`for ; lineEnd < len(data) && data[lineEnd] != '\n'; lineEnd++` of
src/main.go. -/
def lineEndOff (data : List Nat) (j : Nat) : Nat :=
  if h : j < data.length ∧ data.getD j 0 ≠ 10 then lineEndOff data (j + 1) + 1 else 0
termination_by data.length - j
decreasing_by omega

/-- The position at which the line-end scan of src/main.go stops. -/
def findLineEnd (data : List Nat) (j : Nat) : Nat := j + lineEndOff data j

/-- Go slice `data[a:b]`. -/
def extract (data : List Nat) (a b : Nat) : List Nat := (data.drop a).take (b - a)

/-- The scan loop of `func processData` (lines 433–468 of src/main.go).
`i` is the loop index, `start` the start of the current station name,
`hash` the incrementally built FNV-1a state. -/
def processLoop (data : List Nat) (endPos i start hash : Nat) (res : hashtable) :
    Option hashtable :=
  if hi : i < endPos then
    if data.getD i 0 = 59 then
      match recordStep res hash (extract data start i)
          (bytesToFixedPointInt (extract data (i + 1) (findLineEnd data (i + 1)))) with
      | none => none
      | some r =>
        processLoop data endPos (findLineEnd data (i + 1) + 1) (findLineEnd data (i + 1) + 1)
          newFnvHash r
    else if data.getD i 0 = 10 then
      processLoop data endPos (i + 1) (i + 1) newFnvHash res
    else
      processLoop data endPos (i + 1) start (hashByte hash (data.getD i 0)) res
  else some res
termination_by endPos - i
decreasing_by
  · simp only [findLineEnd]
    omega
  · omega
  · omega

/-- `func processData(data []byte, start int, endPos int) *hashtable` from
src/main.go; `none` models a panic of the hash table `add`. -/
def processData (data : List Nat) (start endPos : Nat) : Option hashtable :=
  processLoop data endPos start start newFnvHash (NewHashTable (1 <<< 16))

/-- The boundary-advance loop of `func process` (lines 344–346 of
src/main.go): `for blockEnd < len(data)-1 && data[blockEnd] != '\n' { blockEnd++ }`. -/
def advanceLoop (data : List Nat) (blockEnd : Nat) : Nat :=
  if h : blockEnd < data.length - 1 ∧ data.getD blockEnd 0 ≠ 10 then
    advanceLoop data (blockEnd + 1)
  else blockEnd
termination_by data.length - blockEnd
decreasing_by omega

/-- The chunking loop of `func process` (lines 336–357 of src/main.go),
counting down the remaining workers; the final worker's range extends to
end-of-file. -/
def chunksGo (data : List Nat) (chunkSize : Nat) : Nat → Nat → List (Nat × Nat)
  | _, 0 => []
  | blockStart, 1 => [(blockStart, data.length)]
  | blockStart, n + 2 =>
    let e0 := blockStart + chunkSize
    let e1 := advanceLoop data e0
    let e2 := if e1 < data.length then e1 + 1 else e1
    (blockStart, e2) :: chunksGo data chunkSize e2 (n + 1)

/-- The ranges `[blockStart, blockEnd)` handed to the workers by
`func process`, with `chunkSize := len(data) / numWorkers`. -/
def chunks (data : List Nat) (numWorkers : Nat) : List (Nat × Nat) :=
  chunksGo data (data.length / numWorkers) 0 numWorkers

/-- `chs` is a sequence of contiguous in-bound ranges starting at `s` and
ending exactly at `n`. -/
def isPartitionFrom : List (Nat × Nat) → Nat → Nat → Bool
  | [], s, n => decide (s = n)
  | (a, b) :: rest, s, n => a = s ∧ a ≤ b ∧ b ≤ n ∧ isPartitionFrom rest b n

/-- `chs` exactly partitions `[0, n)` into contiguous half-open ranges. -/
def isPartition (chs : List (Nat × Nat)) (n : Nat) : Bool := isPartitionFrom chs 0 n

/-- `bytes.Compare(a, b) < 0`: strict lexicographic order on byte slices. -/
def bytesLt : List Nat → List Nat → Bool
  | _, [] => false
  | [], _ :: _ => true
  | a :: as, b :: bs => if a < b then true else if b < a then false else bytesLt as bs

/-- The populated slots of a table, in slot order (lines 364–369 of
src/main.go). -/
def populatedItems (ht : hashtable) : List item :=
  ht.items.filter (fun it => it.value ≠ none)

/-- The populated slots sorted by `bytes.Compare` on the keys (lines
372–374 of src/main.go); the emitted line is a function of this list. -/
def sortedItems (ht : hashtable) : List item :=
  (populatedItems ht).mergeSort (fun x y => ! bytesLt y.key x.key)

/-- Modelled from the spec: the memory-mapping call (`syscall.Mmap`) is
outside the repository; §7 of the spec records "Mapping failure (size
zero, mapping call rejection): fatal", so a size-zero mapping is rejected. -/
def mmapFile (bytes : List Nat) : Except String (List Nat) :=
  if bytes.length = 0 then Except.error "mapping failed" else Except.ok bytes

/-- `func process` of src/main.go up to the emitted item list: map the
file, chunk it, run the workers, merge, extract and sort the populated
slots.  `Except.error` covers both a rejected mapping and a worker/merge
panic; the formatter (an external collaborator per the spec) is a function
of the returned item list. -/
def runPipeline (bytes : List Nat) (numWorkers : Nat) : Except String (List item) :=
  match mmapFile bytes with
  | Except.error e => Except.error e
  | Except.ok data =>
    match (chunks data numWorkers).mapM (fun c => processData data c.1 c.2) with
    | none => Except.error "panic"
    | some tables =>
      match mergeHashTables tables with
      | none => Except.error "panic"
      | some res => Except.ok (sortedItems res)

/-- The bytes of one record `station ';' temp '\n'`. -/
def lineBytes (p : List Nat × List Nat) : List Nat := p.1 ++ 59 :: (p.2 ++ [10])

/-- The bytes of a list of records. -/
def linesBytes (ls : List (List Nat × List Nat)) : List Nat := (ls.map lineBytes).flatten

/-- Well-formedness of one record per the input grammar: the station bytes
contain no `';'` and no `'\n'`, the temperature bytes contain no `'\n'`. -/
def wfLine (p : List Nat × List Nat) : Prop :=
  (∀ b ∈ p.1, b ≠ 59 ∧ b ≠ 10) ∧ ∀ b ∈ p.2, b ≠ 10

instance : DecidablePred wfLine := fun p => by unfold wfLine; infer_instance

/-- The contiguous byte ranges induced by grouping the file's records into
consecutive chunks: one range per group, starting at `ofs`. -/
def chunkOffsets : List (List (List Nat × List Nat)) → Nat → List (Nat × Nat)
  | [], _ => []
  | g :: gs, ofs => (ofs, ofs + (linesBytes g).length) :: chunkOffsets gs (ofs + (linesBytes g).length)

/-- The parallel pipeline on the file `linesBytes lss.flatten`, one worker
per group of `lss`, followed by the merge and the sorted extraction. -/
def parallelRun (lss : List (List (List Nat × List Nat))) : Option (List item) :=
  ((chunkOffsets lss 0).mapM
      (fun c => processData (linesBytes lss.flatten) c.1 c.2)).bind
    (fun ts => (mergeHashTables ts).map sortedItems)

/-- The same file processed by a single worker over the whole range,
followed by the merge of that one table and the sorted extraction. -/
def singleRun (lss : List (List (List Nat × List Nat))) : Option (List item) :=
  (processData (linesBytes lss.flatten) 0 (linesBytes lss.flatten).length).bind
    (fun t => (mergeHashTables [t]).map sortedItems)

/-- Number of distinct station names of the input. -/
def stationCount (lss : List (List (List Nat × List Nat))) : Nat :=
  ((lss.flatten.map Prod.fst).dedup).length

/-- Association-list model of a table: lookup by key. -/
def lookupAL (al : List (List Nat × stats)) (k : List Nat) : Option stats :=
  (al.find? (fun p => decide (p.1 = k))).map Prod.snd

/-- Association-list model: replace the value stored at key `k`. -/
def alSet (al : List (List Nat × stats)) (k : List Nat) (s : stats) : List (List Nat × stats) :=
  al.map (fun p => if p.1 = k then (p.1, s) else p)

/-- The fresh aggregate `&stats{temp, temp, temp, 1}` of the worker loop. -/
def statsInit (t : Int) : stats := ⟨t, t, t, 1⟩

/-- Association-list model of one worker record update. -/
def alStep (al : List (List Nat × stats)) (r : List Nat × Int) : List (List Nat × stats) :=
  match lookupAL al r.1 with
  | none => al ++ [(r.1, statsInit r.2)]
  | some s => alSet al r.1 (updStats s r.2)

/-- Association-list model of a worker run over a record list. -/
def alFold (al : List (List Nat × stats)) (recs : List (List Nat × Int)) :
    List (List Nat × stats) :=
  recs.foldl alStep al

/-- The records denoted by a list of (station, temperature-bytes) lines. -/
def recordsOf (ls : List (List Nat × List Nat)) : List (List Nat × Int) :=
  ls.map (fun p => (p.1, bytesToFixedPointInt p.2))

/-- Association-list model of merging one source slot. -/
def alMergeStep (al : List (List Nat × stats)) (it : item) : List (List Nat × stats) :=
  match it.value with
  | none => al
  | some v =>
    match lookupAL al it.key with
    | none => al ++ [(it.key, ⟨v.min, v.max, v.sum, v.count⟩)]
    | some s => alSet al it.key (mergeCombine s v)

/-- Association-list model of merging a list of source slots. -/
def alMergeItems (al : List (List Nat × stats)) (its : List item) : List (List Nat × stats) :=
  its.foldl alMergeStep al

/-- Number of occupied slots. -/
def countOccupied (items : List item) : Nat := items.countP (fun it => it.value ≠ none)

/-- The slot at index `j` (empty slot if out of range). -/
def slotAt (items : List item) (j : Nat) : item := items.getD j default

/-- The `d`-th index of the linear probe sequence started from hash `h` in
a table of `L` slots. -/
def probeIdx (L h d : Nat) : Nat := (h % L + d) % L

/-- The probe at offset `d` of the sequence started from `h` stops: the
slot there is empty or already holds `key`. -/
def stopCond (items : List item) (key : List Nat) (h d : Nat) : Prop :=
  (slotAt items (probeIdx items.length h d)).value = none ∨
  (slotAt items (probeIdx items.length h d)).key = key

instance (items : List item) (key : List Nat) (h d : Nat) :
    Decidable (stopCond items key h d) := by unfold stopCond; infer_instance

/-- Reference description of both probe loops: the first offset `d ∈ [c, L)`
such that the slot at `(h % L + d) % L` is empty or holds `key`. -/
def scanStop (items : List item) (key : List Nat) (h c : Nat) : Option Nat :=
  if hc : c < items.length then
    if stopCond items key h c then some c else scanStop items key h (c + 1)
  else none
termination_by items.length - c
decreasing_by omega

/-- The `d`-th slot index of the probe sequence of key `k` in a table of
`L` slots. -/
def homeIdx (L : Nat) (k : List Nat) (d : Nat) : Nat := probeIdx L (fnvOf k) d

/-- Aggregate of a station's temperature list (`none` when empty). -/
def statsOpt : List Int → Option stats
  | [] => none
  | t :: ts => some (ts.foldl updStats (statsInit t))

/-- The temperatures of station `k`, in record order. -/
def tempsOf (recs : List (List Nat × Int)) (k : List Nat) : List Int :=
  (recs.filter (fun r => decide (r.1 = k))).map Prod.snd

/-- The stored-hash invariant: every occupied slot's stored hash is the
FNV-1a hash recomputed from its key bytes. -/
def hashInv (t : hashtable) : Prop :=
  ∀ it ∈ t.items, it.value ≠ none → it.hash = fnvOf it.key

/-- The worker loop folded over explicit records, with panic propagation. -/
def recFoldM (t : Option hashtable) (recs : List (List Nat × Int)) : Option hashtable :=
  recs.foldl (fun acc r => acc.bind (fun res => recordStep res (fnvOf r.1) r.1 r.2)) t

/-- The aggregate stored for key `k` by the unique occupied slot of a slot
list with distinct occupied keys. -/
def findValue (its : List item) (k : List Nat) : Option stats :=
  match its.find? (fun it => decide (it.key = k) && decide (it.value ≠ none)) with
  | some it => it.value
  | none => none

/-- Fold a station's further temperatures into an optional aggregate. -/
def combineUpd (o : Option stats) (ts : List Int) : Option stats :=
  match o with
  | none => statsOpt ts
  | some s => some (ts.foldl updStats s)

/-- Combine an optional merge-table aggregate with an optional source-table
aggregate, as the merger does per key. -/
def combineMerge (o v : Option stats) : Option stats :=
  match v with
  | none => o
  | some v' =>
    match o with
    | none => some v'
    | some s => some (mergeCombine s v')

/-- The item list denoted by an association list (stored hash recomputed
from the key). -/
def alItems (al : List (List Nat × stats)) : List item :=
  al.map (fun p => ⟨fnvOf p.1, p.1, some p.2⟩)

/-- Simulation invariant tying a hash table to its association-list model:
stored hashes are recomputable from the keys, table and model agree, every
occupied slot sits on its key's probe path behind occupied mismatching
slots, model keys are distinct, and the occupied-slot count equals the
model size. -/
structure TInv (t : hashtable) (al : List (List Nat × stats)) : Prop where
  hashOk : ∀ j < t.items.length, (slotAt t.items j).value ≠ none →
    (slotAt t.items j).hash = fnvOf (slotAt t.items j).key
  alMatch : ∀ j < t.items.length, ∀ s, (slotAt t.items j).value = some s →
    lookupAL al (slotAt t.items j).key = some s
  complete : ∀ k s, lookupAL al k = some s →
    ∃ j, j < t.items.length ∧ (slotAt t.items j).key = k ∧ (slotAt t.items j).value = some s
  pathOk : ∀ j < t.items.length, (slotAt t.items j).value ≠ none →
    ∃ d < t.items.length, j = homeIdx t.items.length (slotAt t.items j).key d ∧
      ∀ e < d, (slotAt t.items (homeIdx t.items.length (slotAt t.items j).key e)).value ≠ none ∧
        (slotAt t.items (homeIdx t.items.length (slotAt t.items j).key e)).key ≠
          (slotAt t.items j).key
  alNodup : (al.map Prod.fst).Nodup
  sizeOk : countOccupied t.items = al.length

/-! ## Basic facts about the decoder, the byte search, the hash and the pipeline entry -/

/-- C2: for every byte slice of one of the four legal shapes `D.D`, `DD.D`,
`-D.D`, `-DD.D`, `bytesToFixedPointInt` returns the signed integer equal to
the denoted decimal temperature multiplied by ten, and that value lies in
`[-999, 999]`. -/
theorem spec_C2_decoder : ∀ a b c : Fin 10,
    (bytesToFixedPointInt [48 + a.val, 46, 48 + b.val] = 10 * (a.val : Int) + b.val ∧
      bytesToFixedPointInt [48 + a.val, 48 + b.val, 46, 48 + c.val] =
        100 * (a.val : Int) + 10 * b.val + c.val ∧
      bytesToFixedPointInt [45, 48 + a.val, 46, 48 + b.val] = -(10 * (a.val : Int) + b.val) ∧
      bytesToFixedPointInt [45, 48 + a.val, 48 + b.val, 46, 48 + c.val] =
        -(100 * (a.val : Int) + 10 * b.val + c.val)) ∧
    (-999 ≤ bytesToFixedPointInt [48 + a.val, 46, 48 + b.val] ∧
      bytesToFixedPointInt [48 + a.val, 46, 48 + b.val] ≤ 999) ∧
    (-999 ≤ bytesToFixedPointInt [48 + a.val, 48 + b.val, 46, 48 + c.val] ∧
      bytesToFixedPointInt [48 + a.val, 48 + b.val, 46, 48 + c.val] ≤ 999) ∧
    (-999 ≤ bytesToFixedPointInt [45, 48 + a.val, 46, 48 + b.val] ∧
      bytesToFixedPointInt [45, 48 + a.val, 46, 48 + b.val] ≤ 999) ∧
    (-999 ≤ bytesToFixedPointInt [45, 48 + a.val, 48 + b.val, 46, 48 + c.val] ∧
      bytesToFixedPointInt [45, 48 + a.val, 48 + b.val, 46, 48 + c.val] ≤ 999) := by
  decide

/-- C4: the scalar byte search returns the first match position, or `end`
when no byte of `data[start:end]` equals the target. -/
theorem spec_C4_findByte (data : List Nat) (start e target : Nat)
    (hse : start ≤ e) (hbound : e ≤ data.length) :
    start ≤ findByte data start e target ∧
    findByte data start e target ≤ e ∧
    (findByte data start e target = e ↔
      ∀ i, start ≤ i → i < e → data.getD i 0 ≠ target) ∧
    (findByte data start e target < e →
      data.getD (findByte data start e target) 0 = target ∧
      ∀ i, start ≤ i → i < findByte data start e target → data.getD i 0 ≠ target) := by
  clear hbound
  have main : ∀ n start, e - start = n → start ≤ e →
      start ≤ findByte data start e target ∧
      findByte data start e target ≤ e ∧
      (findByte data start e target = e ↔
        ∀ i, start ≤ i → i < e → data.getD i 0 ≠ target) ∧
      (findByte data start e target < e →
        data.getD (findByte data start e target) 0 = target ∧
        ∀ i, start ≤ i → i < findByte data start e target → data.getD i 0 ≠ target) := by
    intro n
    induction n with
    | zero =>
      intro start hn hse
      have hnl : ¬ start < e := by omega
      rw [findByte, dif_neg hnl]
      refine ⟨by omega, le_refl _, ⟨fun _ i h1 h2 => by omega, fun _ => rfl⟩, by omega⟩
    | succ n ih =>
      intro start hn hse
      have hlt : start < e := by omega
      rw [findByte, dif_pos hlt]
      by_cases hm : data.getD start 0 = target
      · rw [if_pos hm]
        refine ⟨le_refl _, le_of_lt hlt, ?_, ?_⟩
        · constructor
          · intro h; omega
          · intro h; exact absurd hm (h start (le_refl _) hlt)
        · intro _; exact ⟨hm, fun i h1 h2 => absurd h1 (by omega)⟩
      · rw [if_neg hm]
        obtain ⟨ih1, ih2, ih3, ih4⟩ := ih (start + 1) (by omega) (by omega)
        refine ⟨by omega, ih2, ?_, ?_⟩
        · constructor
          · intro h i h1 h2
            rcases Nat.eq_or_lt_of_le h1 with h1' | h1'
            · subst h1'; exact hm
            · exact ih3.1 h i h1' h2
          · intro h; exact ih3.2 (fun i h1 h2 => h i (by omega) h2)
        · intro h
          obtain ⟨hmm, hpre⟩ := ih4 h
          refine ⟨hmm, fun i h1 h2 => ?_⟩
          rcases Nat.eq_or_lt_of_le h1 with h1' | h1'
          · subst h1'; exact hm
          · exact hpre i h1' h2
  exact main (e - start) start rfl hse

/-- Witness for C4 at a concrete buffer. -/
theorem spec_C4_findByte_witness :
    0 ≤ 4 ∧ 4 ≤ ([1, 2, 3, 2] : List Nat).length ∧
    (findByte [1, 2, 3, 2] 0 4 2 < 4 →
      [1, 2, 3, 2].getD (findByte [1, 2, 3, 2] 0 4 2) 0 = 2 ∧
      ∀ i, 0 ≤ i → i < findByte [1, 2, 3, 2] 0 4 2 → [1, 2, 3, 2].getD i 0 ≠ 2) := by
  exact ⟨by decide, by decide,
    (spec_C4_findByte [1, 2, 3, 2] 0 4 2 (by decide) (by decide)).2.2.2⟩

/-- C5: the incremental hash uses initialization value
`14695981039346656037` and multiplier `1099511628211`, updates per byte by
multiplying modulo `2^64` and XORing the zero-extended byte, and
accumulation over a byte range composes: hashing `l₁ ++ l₂` equals
continuing the byte-by-byte accumulation of `l₂` from the hash of `l₁`, so
a hash accumulated during the scan equals one recomputed over the same key
bytes. -/
theorem spec_C5_hash :
    newFnvHash = 14695981039346656037 ∧
    (∀ h b, hashByte h b = (h * 1099511628211) % 2 ^ 64 ^^^ b % 256) ∧
    (∀ l₁ l₂ h, hashBytes (hashBytes h l₁) l₂ = hashBytes h (l₁ ++ l₂)) ∧
    (∀ l b h, hashBytes h (l ++ [b]) = hashByte (hashBytes h l) b) := by
  refine ⟨rfl, fun h b => rfl, fun l₁ l₂ h => ?_, fun l b h => ?_⟩
  · unfold hashBytes
    rw [List.foldl_append]
  · unfold hashBytes
    rw [List.foldl_append]
    rfl

/-- C9 counterexample: on an empty input the pipeline does not emit the
empty summary; the size-zero mapping is rejected and the run is fatal. -/
theorem spec_C9_cex :
    runPipeline [] 1 = Except.error "mapping failed" ∧
    ∀ out, runPipeline [] 1 ≠ Except.ok out := by
  constructor
  · rfl
  · intro out h
    exact absurd h (by simp [runPipeline, mmapFile])

/-- C9 amended: for every worker count, an empty (size-zero) input makes
the mapping call fail and the program exits with a fatal error instead of
emitting `{}`. -/
theorem spec_C9_amended : ∀ numWorkers, runPipeline [] numWorkers =
    Except.error "mapping failed" := fun _ => rfl

/-- C3 counterexample: on the 6-byte file `x;1.1\n` with 3 workers the
chunker emits the ranges `[0,6), [6,8), [8,6)`, which do not partition
`[0, 6)`: the second range reaches past end-of-file and the last is
reversed. -/
theorem spec_C3_cex :
    chunks [120, 59, 49, 46, 49, 10] 3 = [(0, 6), (6, 8), (8, 6)] ∧
    isPartition (chunks [120, 59, 49, 46, 49, 10] 3)
      ([120, 59, 49, 46, 49, 10] : List Nat).length = false := by
  have h : chunks [120, 59, 49, 46, 49, 10] 3 = [(0, 6), (6, 8), (8, 6)] := by
    simp [chunks, chunksGo, advanceLoop]
  exact ⟨h, by rw [h]; decide⟩

/-! ## Probe-sequence machinery -/

theorem slotAt_getElem {items : List item} {j : Nat} (hj : j < items.length) :
    slotAt items j = items[j] := by
  simp [slotAt, List.getD_eq_getElem?_getD, List.getElem?_eq_getElem hj]

theorem slotAt_mem {items : List item} {j : Nat} (hj : j < items.length) :
    slotAt items j ∈ items := by
  rw [slotAt_getElem hj]
  exact List.getElem_mem hj

theorem slotAt_set_self {items : List item} {j : Nat} (hj : j < items.length) (a : item) :
    slotAt (items.set j a) j = a := by
  unfold slotAt
  rw [List.getD_eq_getElem?_getD, List.getElem?_set_self hj]
  rfl

theorem slotAt_set_ne {items : List item} {j j' : Nat} (h : j ≠ j') (a : item) :
    slotAt (items.set j a) j' = slotAt items j' := by
  unfold slotAt
  rw [List.getD_eq_getElem?_getD, List.getD_eq_getElem?_getD, List.getElem?_set_ne h]

theorem probeIdx_lt (L h d : Nat) (hL : 0 < L) : probeIdx L h d < L :=
  Nat.mod_lt _ hL

theorem probeIdx_zero (L h : Nat) : probeIdx L h 0 = h % L := by
  simp [probeIdx]

theorem probeIdx_succ (L h c : Nat) : (probeIdx L h c + 1) % L = probeIdx L h (c + 1) := by
  unfold probeIdx
  rw [Nat.mod_add_mod, Nat.add_assoc]

theorem probeIdx_cases (L h d : Nat) (hL : 0 < L) (hd : d ≤ L) :
    (h % L + d < L ∧ probeIdx L h d = h % L + d) ∨
    (L ≤ h % L + d ∧ probeIdx L h d = h % L + d - L) := by
  have ha : h % L < L := Nat.mod_lt _ hL
  unfold probeIdx
  rcases Nat.lt_or_ge (h % L + d) L with hc | hc
  · exact Or.inl ⟨hc, Nat.mod_eq_of_lt hc⟩
  · refine Or.inr ⟨hc, ?_⟩
    rw [Nat.mod_eq_sub_mod hc, Nat.mod_eq_of_lt (by omega)]

theorem probeIdx_wrap {L h c : Nat} (hL : 0 < L) (hc : c + 1 ≤ L) :
    probeIdx L h (c + 1) = h % L ↔ c + 1 = L := by
  have ha : h % L < L := Nat.mod_lt _ hL
  constructor
  · intro heq
    rcases probeIdx_cases L h (c + 1) hL hc with ⟨h1, h2⟩ | ⟨h1, h2⟩ <;> omega
  · intro heq
    rw [heq]
    unfold probeIdx
    rw [Nat.add_mod_right]
    exact Nat.mod_eq_of_lt ha

theorem probeIdx_inj {L h : Nat} (hL : 0 < L) {d₁ d₂ : Nat} (h₁ : d₁ < L) (h₂ : d₂ < L)
    (heq : probeIdx L h d₁ = probeIdx L h d₂) : d₁ = d₂ := by
  rcases probeIdx_cases L h d₁ hL (le_of_lt h₁) with ⟨ha, hb⟩ | ⟨ha, hb⟩ <;>
    rcases probeIdx_cases L h d₂ hL (le_of_lt h₂) with ⟨hc, hd⟩ | ⟨hc, hd⟩ <;>
      have := Nat.mod_lt h (show 0 < L from hL) <;> omega

theorem probeIdx_surj {L : Nat} (h j : Nat) (hL : 0 < L) (hj : j < L) :
    ∃ d, d < L ∧ probeIdx L h d = j := by
  have ha : h % L < L := Nat.mod_lt _ hL
  by_cases hc : h % L ≤ j
  · refine ⟨j - h % L, by omega, ?_⟩
    unfold probeIdx
    rw [Nat.add_sub_cancel' hc, Nat.mod_eq_of_lt hj]
  · refine ⟨j + L - h % L, by omega, ?_⟩
    unfold probeIdx
    have he : h % L + (j + L - h % L) = j + L := by omega
    rw [he, Nat.add_mod_right, Nat.mod_eq_of_lt hj]

theorem scanStop_some {items : List item} {key : List Nat} {h : Nat} :
    ∀ {c d : Nat}, scanStop items key h c = some d →
      c ≤ d ∧ d < items.length ∧ stopCond items key h d ∧
      ∀ e, c ≤ e → e < d → ¬ stopCond items key h e := by
  have main : ∀ n c d, items.length - c ≤ n → scanStop items key h c = some d →
      c ≤ d ∧ d < items.length ∧ stopCond items key h d ∧
      ∀ e, c ≤ e → e < d → ¬ stopCond items key h e := by
    intro n
    induction n with
    | zero =>
      intro c d hn hs
      rw [scanStop, dif_neg (by omega)] at hs
      exact Option.noConfusion hs
    | succ n ih =>
      intro c d hn hs
      by_cases hc : c < items.length
      · rw [scanStop, dif_pos hc] at hs
        by_cases hstop : stopCond items key h c
        · rw [if_pos hstop] at hs
          cases hs
          exact ⟨le_refl _, hc, hstop, fun e h1 h2 => by omega⟩
        · rw [if_neg hstop] at hs
          obtain ⟨h1, h2, h3, h4⟩ := ih (c + 1) d (by omega) hs
          refine ⟨by omega, h2, h3, fun e he1 he2 => ?_⟩
          rcases Nat.eq_or_lt_of_le he1 with he | he
          · subst he; exact hstop
          · exact h4 e he he2
      · rw [scanStop, dif_neg hc] at hs
        exact Option.noConfusion hs
  exact fun {c d} => main (items.length - c) c d (le_refl _)

theorem scanStop_none_all {items : List item} {key : List Nat} {h : Nat} :
    ∀ {c : Nat}, scanStop items key h c = none →
      ∀ d, c ≤ d → d < items.length → ¬ stopCond items key h d := by
  have main : ∀ n c, items.length - c ≤ n → scanStop items key h c = none →
      ∀ d, c ≤ d → d < items.length → ¬ stopCond items key h d := by
    intro n
    induction n with
    | zero =>
      intro c hn _ d hd1 hd2
      omega
    | succ n ih =>
      intro c hn hs d hd1 hd2
      by_cases hc : c < items.length
      · rw [scanStop, dif_pos hc] at hs
        by_cases hstop : stopCond items key h c
        · rw [if_pos hstop] at hs; exact Option.noConfusion hs
        · rw [if_neg hstop] at hs
          rcases Nat.eq_or_lt_of_le hd1 with he | he
          · subst he; exact hstop
          · exact ih (c + 1) (by omega) hs d he hd2
      · omega
  exact fun {c} => main (items.length - c) c (le_refl _)

theorem scanStop_isSome {items : List item} {key : List Nat} {h : Nat} {d : Nat}
    (hd : d < items.length) (hstop : stopCond items key h d) :
    (scanStop items key h 0).isSome := by
  cases hs : scanStop items key h 0 with
  | none => exact absurd hstop (scanStop_none_all hs d (Nat.zero_le _) hd)
  | some d' => rfl

theorem probeGet_step (items : List item) (key : List Nat) (index orig fuel : Nat) :
    probeGet items key index orig (fuel + 1) =
      if (slotAt items index).value = none then none
      else if (slotAt items index).key = key then some index
      else if (index + 1) % items.length = orig then none
      else probeGet items key ((index + 1) % items.length) orig fuel := by
  show (match (slotAt items index).value with
      | none => none
      | some _ =>
        if (slotAt items index).key = key then some index
        else if (index + 1) % items.length = orig then none
        else probeGet items key ((index + 1) % items.length) orig fuel) = _
  cases hv : (slotAt items index).value <;> simp

theorem probeAdd_step (items : List item) (hash : Nat) (key : List Nat) (v : stats)
    (index orig fuel : Nat) :
    probeAdd items hash key v index orig (fuel + 1) =
      if (slotAt items index).value = none
      then some (items.set index ⟨hash, key, some v⟩, true)
      else if (slotAt items index).key = key
      then some (items.set index
        ⟨(slotAt items index).hash, (slotAt items index).key, some v⟩, false)
      else if (index + 1) % items.length = orig then none
      else probeAdd items hash key v ((index + 1) % items.length) orig fuel := by
  show (match (slotAt items index).value with
      | none => some (items.set index ⟨hash, key, some v⟩, true)
      | some _ =>
        if (slotAt items index).key = key
        then some (items.set index
          ⟨(slotAt items index).hash, (slotAt items index).key, some v⟩, false)
        else if (index + 1) % items.length = orig then none
        else probeAdd items hash key v ((index + 1) % items.length) orig fuel) = _
  cases hv : (slotAt items index).value <;> simp

theorem probeGet_scan_aux (items : List item) (key : List Nat) (h : Nat)
    (hL : 0 < items.length) :
    ∀ n c, items.length - c = n → c < items.length →
      probeGet items key (probeIdx items.length h c) (h % items.length) (items.length - c) =
        (match scanStop items key h c with
         | none => none
         | some d =>
           if (slotAt items (probeIdx items.length h d)).value = none then none
           else some (probeIdx items.length h d)) := by
  intro n
  induction n with
  | zero => intro c hn hc; omega
  | succ n ih =>
    intro c hn hc
    rw [hn, probeGet_step, scanStop, dif_pos hc]
    by_cases hv : (slotAt items (probeIdx items.length h c)).value = none
    · rw [if_pos (show stopCond items key h c from Or.inl hv)]
      rw [if_pos hv]
      simp [hv]
    · rw [if_neg hv]
      by_cases hk : (slotAt items (probeIdx items.length h c)).key = key
      · rw [if_pos (show stopCond items key h c from Or.inr hk)]
        rw [if_pos hk]
        simp [hv]
      · rw [if_neg (show ¬ stopCond items key h c from fun hs => hs.elim hv hk)]
        rw [if_neg hk]
        rw [probeIdx_succ]
        by_cases hw : c + 1 = items.length
        · rw [if_pos ((probeIdx_wrap hL (by omega)).mpr hw)]
          rw [scanStop, dif_neg (by omega)]
        · rw [if_neg (fun hx => hw ((probeIdx_wrap hL (by omega)).mp hx))]
          have := ih (c + 1) (by omega) (by omega)
          rw [show items.length - (c + 1) = n from by omega] at this
          exact this

theorem probeAdd_scan_aux (items : List item) (hash : Nat) (key : List Nat) (v : stats)
    (hL : 0 < items.length) :
    ∀ n c, items.length - c = n → c < items.length →
      probeAdd items hash key v (probeIdx items.length hash c) (hash % items.length)
          (items.length - c) =
        (match scanStop items key hash c with
         | none => none
         | some d =>
           if (slotAt items (probeIdx items.length hash d)).value = none
           then some (items.set (probeIdx items.length hash d) ⟨hash, key, some v⟩, true)
           else some (items.set (probeIdx items.length hash d)
             ⟨(slotAt items (probeIdx items.length hash d)).hash,
              (slotAt items (probeIdx items.length hash d)).key, some v⟩, false)) := by
  intro n
  induction n with
  | zero => intro c hn hc; omega
  | succ n ih =>
    intro c hn hc
    rw [hn, probeAdd_step, scanStop, dif_pos hc]
    by_cases hv : (slotAt items (probeIdx items.length hash c)).value = none
    · rw [if_pos (show stopCond items key hash c from Or.inl hv)]
      rw [if_pos hv]
      simp [hv]
    · rw [if_neg hv]
      by_cases hk : (slotAt items (probeIdx items.length hash c)).key = key
      · rw [if_pos (show stopCond items key hash c from Or.inr hk)]
        rw [if_pos hk]
        simp [hv]
      · rw [if_neg (show ¬ stopCond items key hash c from fun hs => hs.elim hv hk)]
        rw [if_neg hk]
        rw [probeIdx_succ]
        by_cases hw : c + 1 = items.length
        · rw [if_pos ((probeIdx_wrap hL (by omega)).mpr hw)]
          rw [scanStop, dif_neg (by omega)]
        · rw [if_neg (fun hx => hw ((probeIdx_wrap hL (by omega)).mp hx))]
          have := ih (c + 1) (by omega) (by omega)
          rw [show items.length - (c + 1) = n from by omega] at this
          exact this

theorem getIdx_eq_scan (ht : hashtable) (h : Nat) (key : List Nat)
    (hL : 0 < ht.items.length) :
    ht.getIdx h key =
      (match scanStop ht.items key h 0 with
       | none => none
       | some d =>
         if (slotAt ht.items (probeIdx ht.items.length h d)).value = none then none
         else some (probeIdx ht.items.length h d)) := by
  unfold hashtable.getIdx
  have := probeGet_scan_aux ht.items key h hL ht.items.length 0 (by omega) hL
  rw [probeIdx_zero] at this
  rw [show ht.items.length - 0 = ht.items.length from rfl] at this
  exact this

theorem add_eq_scan (ht : hashtable) (hash : Nat) (key : List Nat) (v : stats)
    (hL : 0 < ht.items.length) :
    ht.add hash key v =
      (match scanStop ht.items key hash 0 with
       | none => none
       | some d =>
         if (slotAt ht.items (probeIdx ht.items.length hash d)).value = none
         then some ⟨ht.items.set (probeIdx ht.items.length hash d) ⟨hash, key, some v⟩,
           add64 ht.size 1⟩
         else some ⟨ht.items.set (probeIdx ht.items.length hash d)
           ⟨(slotAt ht.items (probeIdx ht.items.length hash d)).hash,
            (slotAt ht.items (probeIdx ht.items.length hash d)).key, some v⟩, ht.size⟩) := by
  unfold hashtable.add
  have haux := probeAdd_scan_aux ht.items hash key v hL ht.items.length 0 (by omega) hL
  rw [probeIdx_zero] at haux
  rw [show ht.items.length - 0 = ht.items.length from rfl] at haux
  rw [haux]
  cases hs : scanStop ht.items key hash 0 with
  | none => rfl
  | some d =>
    by_cases hv : (slotAt ht.items (probeIdx ht.items.length hash d)).value = none
    · simp only [hv, if_true, ite_true, eq_self_iff_true]
    · simp only [hv, if_false, ite_false, eq_self_iff_true]

/-- C6 counterexample: `get` does not pre-check the stored hash.  A table
whose single slot stores hash `7` still answers a lookup with hash `0`
(same key bytes), so `get` returns a slot whose stored hash differs from
the query hash. -/
theorem spec_C6_cex :
    hashtable.get ⟨[⟨7, [1], some ⟨3, 4, 5, 6⟩⟩], 1⟩ 0 [1] = some ⟨3, 4, 5, 6⟩ ∧
    (slotAt (⟨[⟨7, [1], some ⟨3, 4, 5, 6⟩⟩], 1⟩ : hashtable).items 0).hash ≠ 0 := by
  constructor
  · rfl
  · decide

/-- C6 amended: `get` probes linearly from the home slot `hash % len`,
returns `none` at the first empty slot (and after a full wrap), and
returns the aggregate stored at the first probed slot whose key bytes
equal the query key — the stored hash is never compared. -/
theorem spec_C6_get (ht : hashtable) (h : Nat) (key : List Nat)
    (hL : 0 < ht.items.length) :
    ∀ s, ht.get h key = some s ↔
      ∃ d, d < ht.items.length ∧
        (slotAt ht.items (probeIdx ht.items.length h d)).key = key ∧
        (slotAt ht.items (probeIdx ht.items.length h d)).value = some s ∧
        ∀ e < d, (slotAt ht.items (probeIdx ht.items.length h e)).value ≠ none ∧
          (slotAt ht.items (probeIdx ht.items.length h e)).key ≠ key := by
  intro s
  unfold hashtable.get
  rw [getIdx_eq_scan ht h key hL]
  constructor
  · intro hg
    cases hs : scanStop ht.items key h 0 with
    | none => rw [hs] at hg; exact Option.noConfusion hg
    | some d =>
      rw [hs] at hg
      obtain ⟨_, hd, hstop, hpre⟩ := scanStop_some hs
      have hg2 : (match (if (slotAt ht.items (probeIdx ht.items.length h d)).value = none
            then none else some (probeIdx ht.items.length h d) : Option Nat) with
          | some j => (ht.items.getD j default).value
          | none => none) = some s := hg
      by_cases hv : (slotAt ht.items (probeIdx ht.items.length h d)).value = none
      · rw [if_pos hv] at hg2; exact Option.noConfusion hg2
      · rw [if_neg hv] at hg2
        have hj : (slotAt ht.items (probeIdx ht.items.length h d)).value = some s := hg2
        have hk : (slotAt ht.items (probeIdx ht.items.length h d)).key = key := by
          rcases hstop with hst | hst
          · exact absurd hst hv
          · exact hst
        refine ⟨d, hd, hk, hj, fun e he => ?_⟩
        have := hpre e (Nat.zero_le _) he
        unfold stopCond at this
        push_neg at this
        exact this
  · rintro ⟨d, hd, hk, hv, hpre⟩
    -- d is the first stop offset
    have hstop : stopCond ht.items key h d := Or.inr hk
    have hfirst : ∀ e, 0 ≤ e → e < d → ¬ stopCond ht.items key h e := by
      intro e _ he
      unfold stopCond
      push_neg
      exact hpre e he
    have hsome : scanStop ht.items key h 0 = some d := by
      cases hs : scanStop ht.items key h 0 with
      | none => exact absurd hstop (scanStop_none_all hs d (Nat.zero_le _) hd)
      | some d' =>
        obtain ⟨_, hd', hstop', hpre'⟩ := scanStop_some hs
        rcases Nat.lt_trichotomy d' d with hc | hc | hc
        · exact absurd hstop' (hfirst d' (Nat.zero_le _) hc)
        · rw [hc]
        · exact absurd hstop (hpre' d (Nat.zero_le _) hc)
    rw [hsome]
    show (match (if (slotAt ht.items (probeIdx ht.items.length h d)).value = none
        then none else some (probeIdx ht.items.length h d) : Option Nat) with
      | some j => (ht.items.getD j default).value
      | none => none) = some s
    rw [if_neg (by rw [hv]; exact fun hx => Option.noConfusion hx)]
    exact hv

/-- Witness for C6 amended: a concrete two-slot table where the lookup
walks one collision and finds the key at offset 1. -/
theorem spec_C6_get_witness :
    0 < (⟨[⟨0, [5], some ⟨1, 1, 1, 1⟩⟩, ⟨0, [7], some ⟨2, 2, 2, 2⟩⟩], 2⟩ :
      hashtable).items.length ∧
    (hashtable.get ⟨[⟨0, [5], some ⟨1, 1, 1, 1⟩⟩, ⟨0, [7], some ⟨2, 2, 2, 2⟩⟩], 2⟩ 0 [7] =
        some ⟨2, 2, 2, 2⟩ ↔
      ∃ d, d < 2 ∧
        (slotAt [⟨0, [5], some ⟨1, 1, 1, 1⟩⟩, ⟨0, [7], some ⟨2, 2, 2, 2⟩⟩]
          (probeIdx 2 0 d)).key = [7] ∧
        (slotAt [⟨0, [5], some ⟨1, 1, 1, 1⟩⟩, ⟨0, [7], some ⟨2, 2, 2, 2⟩⟩]
          (probeIdx 2 0 d)).value = some ⟨2, 2, 2, 2⟩ ∧
        ∀ e < d, (slotAt [⟨0, [5], some ⟨1, 1, 1, 1⟩⟩, ⟨0, [7], some ⟨2, 2, 2, 2⟩⟩]
            (probeIdx 2 0 e)).value ≠ none ∧
          (slotAt [⟨0, [5], some ⟨1, 1, 1, 1⟩⟩, ⟨0, [7], some ⟨2, 2, 2, 2⟩⟩]
            (probeIdx 2 0 e)).key ≠ [7]) :=
  ⟨by decide,
    spec_C6_get ⟨[⟨0, [5], some ⟨1, 1, 1, 1⟩⟩, ⟨0, [7], some ⟨2, 2, 2, 2⟩⟩], 2⟩ 0 [7]
      (by decide) ⟨2, 2, 2, 2⟩⟩

/-- C7: on a table whose every slot is occupied by a key different from the
inserted one, `add` is a hard failure (the `panic`, modelled as `none`);
conversely `add` never fails when some slot is still empty. -/
theorem spec_C7_add (ht : hashtable) (hash : Nat) (key : List Nat) (v : stats)
    (hL : 0 < ht.items.length) :
    ((∀ j, j < ht.items.length →
        (slotAt ht.items j).value ≠ none ∧ (slotAt ht.items j).key ≠ key) →
      ht.add hash key v = none) ∧
    ((∃ j, j < ht.items.length ∧ (slotAt ht.items j).value = none) →
      (ht.add hash key v).isSome) := by
  constructor
  · intro hfull
    rw [add_eq_scan ht hash key v hL]
    cases hs : scanStop ht.items key hash 0 with
    | none => rfl
    | some d =>
      obtain ⟨_, hd, hstop, _⟩ := scanStop_some hs
      obtain ⟨ho, hk⟩ := hfull (probeIdx ht.items.length hash d)
        (probeIdx_lt ht.items.length hash d hL)
      exact absurd hstop (by unfold stopCond; push_neg; exact ⟨ho, hk⟩)
  · rintro ⟨j, hj, hempty⟩
    rw [add_eq_scan ht hash key v hL]
    obtain ⟨d, hd, hpd⟩ := probeIdx_surj hash j hL hj
    have hstop : stopCond ht.items key hash d := Or.inl (by rw [hpd]; exact hempty)
    cases hs : scanStop ht.items key hash 0 with
    | none => exact absurd hstop (scanStop_none_all hs d (Nat.zero_le _) hd)
    | some d' =>
      by_cases hv : (slotAt ht.items (probeIdx ht.items.length hash d')).value = none
      · simp only [hv, if_true, ite_true]; rfl
      · simp only [hv, if_false, ite_false]; rfl

/-- Witness for C7: a two-slot table with one empty slot accepts the
insertion; a full mismatching table rejects it. -/
theorem spec_C7_add_witness :
    0 < (⟨[⟨0, [5], some ⟨1, 1, 1, 1⟩⟩, ⟨0, [], none⟩], 1⟩ : hashtable).items.length ∧
    ((∃ j, j < 2 ∧ (slotAt [⟨0, [5], some ⟨1, 1, 1, 1⟩⟩, ⟨0, [], none⟩] j).value = none) →
      ((⟨[⟨0, [5], some ⟨1, 1, 1, 1⟩⟩, ⟨0, [], none⟩], 1⟩ : hashtable).add 0 [9]
        ⟨1, 1, 1, 1⟩).isSome) :=
  ⟨by decide,
    (spec_C7_add ⟨[⟨0, [5], some ⟨1, 1, 1, 1⟩⟩, ⟨0, [], none⟩], 1⟩ 0 [9] ⟨1, 1, 1, 1⟩
      (by decide)).2⟩

/-! ## Table sizes and the chunker -/

theorem probeAdd_shape {items : List item} {hash : Nat} {key : List Nat} {v : stats} :
    ∀ {fuel index orig : Nat} {its : List item} {flag : Bool},
      probeAdd items hash key v index orig fuel = some (its, flag) →
      ∃ j a, its = items.set j a := by
  intro fuel
  induction fuel with
  | zero => intro index orig its flag hp; exact Option.noConfusion hp
  | succ fuel ih =>
    intro index orig its flag hp
    rw [probeAdd_step] at hp
    by_cases hv : (slotAt items index).value = none
    · rw [if_pos hv] at hp
      cases hp
      exact ⟨index, _, rfl⟩
    · rw [if_neg hv] at hp
      by_cases hk : (slotAt items index).key = key
      · rw [if_pos hk] at hp
        cases hp
        exact ⟨index, _, rfl⟩
      · rw [if_neg hk] at hp
        by_cases hw : (index + 1) % items.length = orig
        · rw [if_pos hw] at hp; exact Option.noConfusion hp
        · rw [if_neg hw] at hp; exact ih hp

theorem add_items_length {ht : hashtable} {h : Nat} {k : List Nat} {v : stats} {ht' : hashtable}
    (hadd : ht.add h k v = some ht') : ht'.items.length = ht.items.length := by
  unfold hashtable.add at hadd
  cases hp : probeAdd ht.items h k v (h % ht.items.length) (h % ht.items.length)
      ht.items.length with
  | none => rw [hp] at hadd; exact Option.noConfusion hadd
  | some p =>
    obtain ⟨its, flag⟩ := p
    obtain ⟨j, a, hset⟩ := probeAdd_shape hp
    rw [hp] at hadd
    cases flag with
    | true =>
      cases hadd
      rw [hset, List.length_set]
    | false =>
      cases hadd
      rw [hset, List.length_set]

theorem recordStep_items_length {res : hashtable} {h : Nat} {k : List Nat} {temp : Int}
    {r : hashtable} (hr : recordStep res h k temp = some r) :
    r.items.length = res.items.length := by
  unfold recordStep at hr
  cases hg : res.getIdx h k with
  | some j =>
    rw [hg] at hr
    cases hr
    unfold updateSlotItems
    exact List.length_set ..
  | none =>
    rw [hg] at hr
    exact add_items_length hr

theorem findLineEnd_ge (data : List Nat) (j : Nat) : j ≤ findLineEnd data j := by
  unfold findLineEnd
  exact Nat.le_add_right j _

theorem processLoop_items_length {data : List Nat} {endPos : Nat} :
    ∀ {i start hash : Nat} {res t : hashtable},
      processLoop data endPos i start hash res = some t →
      t.items.length = res.items.length := by
  have main : ∀ n i start hash res t, endPos - i ≤ n →
      processLoop data endPos i start hash res = some t →
      t.items.length = res.items.length := by
    intro n
    induction n with
    | zero =>
      intro i start hash res t hn hp
      rw [processLoop, dif_neg (by omega)] at hp
      cases hp; rfl
    | succ n ih =>
      intro i start hash res t hn hp
      by_cases hi : i < endPos
      · rw [processLoop, dif_pos hi] at hp
        by_cases h59 : data.getD i 0 = 59
        · rw [if_pos h59] at hp
          cases hr : recordStep res hash (extract data start i)
              (bytesToFixedPointInt (extract data (i + 1) (findLineEnd data (i + 1)))) with
          | none =>
            rw [hr] at hp
            exact Option.noConfusion hp
          | some r =>
            rw [hr] at hp
            have hge := findLineEnd_ge data (i + 1)
            have h1 := ih (findLineEnd data (i + 1) + 1) (findLineEnd data (i + 1) + 1)
              newFnvHash r t (by omega) hp
            rw [h1, recordStep_items_length hr]
        · rw [if_neg h59] at hp
          by_cases h10 : data.getD i 0 = 10
          · rw [if_pos h10] at hp
            exact ih _ _ _ _ _ (by omega) hp
          · rw [if_neg h10] at hp
            exact ih _ _ _ _ _ (by omega) hp
      · rw [processLoop, dif_neg hi] at hp
        cases hp; rfl
  intro i start hash res t
  exact main (endPos - i) i start hash res t (le_refl _)

theorem mergeItem_items_length {res r : hashtable} {it : item}
    (hm : mergeItem res it = some r) : r.items.length = res.items.length := by
  unfold mergeItem at hm
  cases hv : it.value with
  | none => rw [hv] at hm; cases hm; rfl
  | some v =>
    rw [hv] at hm
    cases hg : res.getIdx it.hash it.key with
    | some j =>
      rw [hg] at hm
      cases hm
      unfold mergeSlotItems
      exact List.length_set ..
    | none =>
      rw [hg] at hm
      exact add_items_length hm

theorem mergeFold_items_length {its : List item} :
    ∀ {acc : Option hashtable} {t : hashtable} {n : Nat},
      (∀ a, acc = some a → a.items.length = n) →
      its.foldl (fun acc it => acc.bind (fun r => mergeItem r it)) acc = some t →
      t.items.length = n := by
  induction its with
  | nil =>
    intro acc t n hacc hf
    exact hacc t hf
  | cons it rest ih =>
    intro acc t n hacc hf
    refine ih ?_ hf
    intro a ha
    cases acc with
    | none => exact Option.noConfusion ha
    | some r =>
      have : mergeItem r it = some a := ha
      rw [mergeItem_items_length this]
      exact hacc r rfl

theorem mergeHashTables_items_length {tables : List hashtable} {t : hashtable}
    (hm : mergeHashTables tables = some t) : t.items.length = 2 ^ 16 := by
  unfold mergeHashTables at hm
  have main : ∀ (ts : List hashtable) (acc : Option hashtable),
      (∀ a, acc = some a → a.items.length = 2 ^ 16) →
      ts.foldl (fun acc tb => tb.items.foldl
        (fun acc it => acc.bind (fun r => mergeItem r it)) acc) acc = some t →
      t.items.length = 2 ^ 16 := by
    intro ts
    induction ts with
    | nil => intro acc hacc hf; exact hacc t hf
    | cons tb rest ih =>
      intro acc hacc hf
      refine ih _ ?_ hf
      intro a ha
      exact mergeFold_items_length hacc ha
  refine main tables _ ?_ hm
  intro a ha
  cases ha
  show (List.replicate (1 <<< 16) default).length = 2 ^ 16
  rw [List.length_replicate]
  decide

/-- C8: both the per-worker tables built by `processData` and the merge
table built by `mergeHashTables` are constructed with `2^16 = 65536` slots
— not `2^14` per-worker and `2^18` merge slots as the project README and
the spec state. -/
theorem spec_C8_sizes :
    (∀ data a b t, processData data a b = some t → t.items.length = 2 ^ 16) ∧
    (∀ tables t, mergeHashTables tables = some t → t.items.length = 2 ^ 16) ∧
    (2 : Nat) ^ 16 ≠ 2 ^ 14 ∧ (2 : Nat) ^ 16 ≠ 2 ^ 18 := by
  refine ⟨?_, ?_, by decide, by decide⟩
  · intro data a b t hp
    unfold processData at hp
    rw [processLoop_items_length hp]
    show (List.replicate (1 <<< 16) default).length = 2 ^ 16
    rw [List.length_replicate]
    decide
  · intro tables t hm
    exact mergeHashTables_items_length hm

/-- Witness for C8: the empty run constructs the `2^16`-slot table. -/
theorem spec_C8_sizes_witness :
    processData [] 0 0 = some (NewHashTable (1 <<< 16)) ∧
    (NewHashTable (1 <<< 16)).items.length = 2 ^ 16 := by
  have h : processData [] 0 0 = some (NewHashTable (1 <<< 16)) := by
    unfold processData
    rw [processLoop, dif_neg (by omega)]
  exact ⟨h, spec_C8_sizes.1 [] 0 0 _ h⟩

theorem advanceLoop_spec (data : List Nat) : ∀ e,
    e ≤ advanceLoop data e ∧
    (advanceLoop data e ≤ data.length - 1 ∨ advanceLoop data e = e) ∧
    ¬ (advanceLoop data e < data.length - 1 ∧ data.getD (advanceLoop data e) 0 ≠ 10) := by
  have main : ∀ n e, data.length - 1 - e ≤ n →
      e ≤ advanceLoop data e ∧
      (advanceLoop data e ≤ data.length - 1 ∨ advanceLoop data e = e) ∧
      ¬ (advanceLoop data e < data.length - 1 ∧ data.getD (advanceLoop data e) 0 ≠ 10) := by
    intro n
    induction n with
    | zero =>
      intro e hn
      have hstop : ¬ (e < data.length - 1 ∧ data.getD e 0 ≠ 10) := by
        intro ⟨h1, _⟩; omega
      rw [advanceLoop, dif_neg hstop]
      exact ⟨le_refl _, Or.inr rfl, hstop⟩
    | succ n ih =>
      intro e hn
      by_cases hc : e < data.length - 1 ∧ data.getD e 0 ≠ 10
      · rw [advanceLoop, dif_pos hc]
        obtain ⟨ih1, ih2, ih3⟩ := ih (e + 1) (by omega)
        exact ⟨by omega, by omega, ih3⟩
      · rw [advanceLoop, dif_neg hc]
        exact ⟨le_refl _, Or.inr rfl, hc⟩
  intro e
  exact main (data.length - 1 - e) e (le_refl _)

theorem chunksGo_ne_nil (data : List Nat) (cs s n : Nat) (hn : 1 ≤ n) :
    chunksGo data cs s n ≠ [] := by
  match n, hn with
  | 1, _ => simp [chunksGo]
  | n + 2, _ => simp [chunksGo]

theorem chunksGo_partition (data : List Nat) (cs : Nat) :
    ∀ n s, 1 ≤ n → s ≤ data.length →
      (∀ c ∈ (chunksGo data cs s n).dropLast, c.1 + cs ≤ data.length) →
      isPartitionFrom (chunksGo data cs s n) s data.length = true ∧
      ∀ c ∈ (chunksGo data cs s n).dropLast,
        c.2 = data.length ∨ data.getD (c.2 - 1) 0 = 10 := by
  intro n
  induction n with
  | zero => intro s hn; omega
  | succ n ih =>
    intro s hn hs hraw
    match n with
    | 0 =>
      refine ⟨?_, ?_⟩
      · show isPartitionFrom [(s, data.length)] s data.length = true
        simp [isPartitionFrom, hs]
      · intro c hc
        simp [chunksGo] at hc
    | m + 1 =>
      have hcons : chunksGo data cs s (m + 1 + 1) =
          (s, if advanceLoop data (s + cs) < data.length
              then advanceLoop data (s + cs) + 1 else advanceLoop data (s + cs)) ::
            chunksGo data cs
              (if advanceLoop data (s + cs) < data.length
               then advanceLoop data (s + cs) + 1 else advanceLoop data (s + cs)) (m + 1) := by
        simp [chunksGo]
      set e1 := advanceLoop data (s + cs) with he1
      set e2 := (if e1 < data.length then e1 + 1 else e1) with he2
      have hrest : chunksGo data cs e2 (m + 1) ≠ [] :=
        chunksGo_ne_nil data cs e2 (m + 1) (by omega)
      have hdrop : (chunksGo data cs s (m + 1 + 1)).dropLast =
          (s, e2) :: (chunksGo data cs e2 (m + 1)).dropLast := by
        rw [hcons]
        exact List.dropLast_cons_of_ne_nil hrest
      have hhead : s + cs ≤ data.length := by
        have : (s, e2) ∈ (chunksGo data cs s (m + 1 + 1)).dropLast := by
          rw [hdrop]; exact List.mem_cons_self _ _
        exact hraw _ this
      obtain ⟨ha1, ha2, ha3⟩ := advanceLoop_spec data (s + cs)
      rw [← he1] at ha1 ha2 ha3
      have he2b : s ≤ e2 ∧ e2 ≤ data.length := by
        by_cases h : e1 < data.length
        · rw [he2, if_pos h]; omega
        · rw [he2, if_neg h]; omega
      have hnl : e2 = data.length ∨ data.getD (e2 - 1) 0 = 10 := by
        by_cases h : e1 < data.length
        · have he2e : e2 = e1 + 1 := by rw [he2, if_pos h]
          by_cases h2 : e1 < data.length - 1
          · right
            rw [he2e]
            simp only [Nat.add_sub_cancel]
            by_contra hne
            exact ha3 ⟨h2, hne⟩
          · left; omega
        · left
          rw [he2, if_neg h]
          omega
      have hrawtail : ∀ c ∈ (chunksGo data cs e2 (m + 1)).dropLast,
          c.1 + cs ≤ data.length := by
        intro c hc
        refine hraw c ?_
        rw [hdrop]
        exact List.mem_cons_of_mem _ hc
      obtain ⟨ih1, ih2⟩ := ih e2 (by omega) he2b.2 hrawtail
      refine ⟨?_, ?_⟩
      · rw [hcons]
        show isPartitionFrom ((s, e2) :: chunksGo data cs e2 (m + 1)) s data.length = true
        simp only [isPartitionFrom, Bool.and_eq_true, decide_eq_true_eq]
        exact ⟨trivial, he2b.1, he2b.2, ih1⟩
      · intro c hc
        rw [hdrop] at hc
        rcases List.mem_cons.mp hc with hc | hc
        · rw [hc]
          exact hnl
        · exact ih2 c hc

/-- C3 amended: the chunker emits contiguous ranges `[s_i, e_i)` with
`s_0 = 0`, `s_{i+1} = e_i` and the final range ending at end-of-file; each
non-final boundary is computed as the previous end plus `len/W` (not as
`i·(len/W)`) and advanced past the next newline, so each non-final range
ends at end-of-file or just after a `'\n'`.  The ranges exactly partition
`[0, N)` provided every non-final raw boundary `prevEnd + len/W` stays
within the file; without that proviso the counterexample applies. -/
theorem spec_C3_amended (data : List Nat) (W : Nat) (hW : 1 ≤ W)
    (hraw : ∀ c ∈ (chunks data W).dropLast, c.1 + data.length / W ≤ data.length) :
    isPartition (chunks data W) data.length = true ∧
    ∀ c ∈ (chunks data W).dropLast, c.2 = data.length ∨ data.getD (c.2 - 1) 0 = 10 := by
  unfold chunks isPartition at *
  exact chunksGo_partition data (data.length / W) W 0 hW (Nat.zero_le _) hraw

/-- Witness for C3 amended: the 18-byte file `A;1.0\nB;2.0\nA;3.0\n` with
2 workers chunks into `[0,12), [12,18)`, a partition with the non-final
range ending just after a newline. -/
theorem spec_C3_amended_witness :
    1 ≤ 2 ∧
    (∀ c ∈ (chunks [65, 59, 49, 46, 48, 10, 66, 59, 50, 46, 48, 10,
        65, 59, 51, 46, 48, 10] 2).dropLast,
      c.1 + ([65, 59, 49, 46, 48, 10, 66, 59, 50, 46, 48, 10,
        65, 59, 51, 46, 48, 10] : List Nat).length / 2 ≤
        ([65, 59, 49, 46, 48, 10, 66, 59, 50, 46, 48, 10,
          65, 59, 51, 46, 48, 10] : List Nat).length) ∧
    (isPartition (chunks [65, 59, 49, 46, 48, 10, 66, 59, 50, 46, 48, 10,
        65, 59, 51, 46, 48, 10] 2)
      ([65, 59, 49, 46, 48, 10, 66, 59, 50, 46, 48, 10,
        65, 59, 51, 46, 48, 10] : List Nat).length = true ∧
     ∀ c ∈ (chunks [65, 59, 49, 46, 48, 10, 66, 59, 50, 46, 48, 10,
        65, 59, 51, 46, 48, 10] 2).dropLast,
       c.2 = ([65, 59, 49, 46, 48, 10, 66, 59, 50, 46, 48, 10,
         65, 59, 51, 46, 48, 10] : List Nat).length ∨
       ([65, 59, 49, 46, 48, 10, 66, 59, 50, 46, 48, 10,
         65, 59, 51, 46, 48, 10] : List Nat).getD (c.2 - 1) 0 = 10) := by
  have hch : chunks [65, 59, 49, 46, 48, 10, 66, 59, 50, 46, 48, 10,
      65, 59, 51, 46, 48, 10] 2 = [(0, 12), (12, 18)] := by
    simp [chunks, chunksGo, advanceLoop]
  have hraw : ∀ c ∈ (chunks [65, 59, 49, 46, 48, 10, 66, 59, 50, 46, 48, 10,
      65, 59, 51, 46, 48, 10] 2).dropLast,
      c.1 + ([65, 59, 49, 46, 48, 10, 66, 59, 50, 46, 48, 10,
        65, 59, 51, 46, 48, 10] : List Nat).length / 2 ≤
        ([65, 59, 49, 46, 48, 10, 66, 59, 50, 46, 48, 10,
          65, 59, 51, 46, 48, 10] : List Nat).length := by
    simp only [hch]
    decide
  exact ⟨by decide, hraw,
    spec_C3_amended [65, 59, 49, 46, 48, 10, 66, 59, 50, 46, 48, 10,
      65, 59, 51, 46, 48, 10] 2 (by decide) hraw⟩

/-! ## The worker loop as a fold over records -/

theorem getD_append_at (pre rest : List Nat) (o : Nat) :
    (pre ++ rest).getD (pre.length + o) 0 = rest.getD o 0 := by
  rw [List.getD_eq_getElem?_getD, List.getD_eq_getElem?_getD,
    List.getElem?_append_right (by omega : pre.length ≤ pre.length + o),
    Nat.add_sub_cancel_left]

theorem getD_ge_length (data : List Nat) (i : Nat) (h : data.length ≤ i) :
    data.getD i 0 = 0 := by
  rw [List.getD_eq_getElem?_getD, List.getElem?_eq_none h]
  rfl

theorem extract_at (pre st mid : List Nat) :
    extract (pre ++ (st ++ mid)) pre.length (pre.length + st.length) = st := by
  unfold extract
  rw [List.drop_left, Nat.add_sub_cancel_left, List.take_left]

theorem extract_nil (data : List Nat) (a : Nat) : extract data a a = [] := by
  unfold extract
  rw [Nat.sub_self, List.take_zero]

theorem extract_snoc (data : List Nat) (a i : Nat) (hai : a ≤ i) (hi : i < data.length) :
    extract data a (i + 1) = extract data a i ++ [data.getD i 0] := by
  unfold extract
  rw [show i + 1 - a = (i - a) + 1 from by omega, List.take_succ]
  congr 1
  rw [List.getElem?_drop, show a + (i - a) = i from by omega,
    List.getElem?_eq_getElem hi]
  rw [List.getD_eq_getElem?_getD, List.getElem?_eq_getElem hi]
  rfl

theorem lineEndOff_at (tp : List Nat) : ∀ (pre2 rest : List Nat), (∀ b ∈ tp, b ≠ 10) →
    lineEndOff (pre2 ++ (tp ++ 10 :: rest)) pre2.length = tp.length := by
  induction tp with
  | nil =>
    intro pre2 rest _
    rw [lineEndOff, dif_neg]
    · rfl
    · intro ⟨_, hne⟩
      exact hne (by simpa using getD_append_at pre2 (10 :: rest) 0)
  | cons b tp' ih =>
    intro pre2 rest htp
    rw [lineEndOff, dif_pos]
    · have hre : pre2 ++ (b :: tp' ++ 10 :: rest) = (pre2 ++ [b]) ++ (tp' ++ 10 :: rest) := by
        simp
      rw [show pre2.length + 1 = (pre2 ++ [b]).length from by simp]
      rw [hre]
      rw [ih (pre2 ++ [b]) rest (fun x hx => htp x (List.mem_cons_of_mem _ hx))]
      rfl
    · constructor
      · simp only [List.length_append, List.length_cons]
        omega
      · have : (pre2 ++ (b :: tp' ++ 10 :: rest)).getD (pre2.length + 0) 0 = b := by
          rw [getD_append_at]
          rfl
        simp only [Nat.add_zero] at this
        rw [this]
        exact htp b (List.mem_cons_self _ _)

theorem findLineEnd_at (pre2 tp rest : List Nat) (htp : ∀ b ∈ tp, b ≠ 10) :
    findLineEnd (pre2 ++ (tp ++ 10 :: rest)) pre2.length = pre2.length + tp.length := by
  unfold findLineEnd
  rw [lineEndOff_at tp pre2 rest htp]

theorem processLoop_scan (endPos : Nat) :
    ∀ (st pre mid : List Nat) (t : hashtable), (∀ b ∈ st, b ≠ 59 ∧ b ≠ 10) →
      pre.length + st.length ≤ endPos →
      ∀ s hash, processLoop (pre ++ (st ++ mid)) endPos pre.length s hash t =
        processLoop (pre ++ (st ++ mid)) endPos (pre.length + st.length) s
          (hashBytes hash st) t := by
  intro st
  induction st with
  | nil =>
    intro pre mid t _ _ s hash
    rfl
  | cons b st' ih =>
    intro pre mid t hst hend s hash
    have hb := hst b (List.mem_cons_self _ _)
    have hi : pre.length < endPos := by
      simp only [List.length_cons] at hend
      omega
    have hgd : (pre ++ (b :: st' ++ mid)).getD pre.length 0 = b := by
      have := getD_append_at pre (b :: st' ++ mid) 0
      simpa using this
    rw [processLoop, dif_pos hi, if_neg (by rw [hgd]; exact hb.1),
      if_neg (by rw [hgd]; exact hb.2), hgd]
    have hre : pre ++ (b :: st' ++ mid) = (pre ++ [b]) ++ (st' ++ mid) := by simp
    have hlen : pre.length + 1 = (pre ++ [b]).length := by simp
    rw [hre, hlen]
    rw [ih (pre ++ [b]) mid t (fun x hx => hst x (List.mem_cons_of_mem _ hx))
      (by simp at hend ⊢; omega) s (hashByte hash b)]
    have : (pre ++ [b]).length + st'.length = pre.length + (b :: st').length := by
      simp
      omega
    rw [this]
    rfl

theorem lineBytes_length (st tp : List Nat) :
    (lineBytes (st, tp)).length = st.length + 1 + tp.length + 1 := by
  simp [lineBytes]
  omega

theorem processLoop_line (endPos : Nat) (t : hashtable) (pre st tp rest : List Nat)
    (hst : ∀ b ∈ st, b ≠ 59 ∧ b ≠ 10) (htp : ∀ b ∈ tp, b ≠ 10)
    (hend : pre.length + (lineBytes (st, tp)).length ≤ endPos) :
    processLoop (pre ++ (lineBytes (st, tp) ++ rest)) endPos pre.length pre.length
        newFnvHash t =
      (match recordStep t (hashBytes newFnvHash st) st (bytesToFixedPointInt tp) with
       | none => none
       | some r =>
         processLoop (pre ++ (lineBytes (st, tp) ++ rest)) endPos
           (pre.length + (lineBytes (st, tp)).length)
           (pre.length + (lineBytes (st, tp)).length) newFnvHash r) := by
  have hlineLen := lineBytes_length st tp
  have hform : pre ++ (lineBytes (st, tp) ++ rest) =
      pre ++ (st ++ (59 :: (tp ++ 10 :: rest))) := by
    simp [lineBytes]
  rw [hform]
  rw [processLoop_scan endPos st pre (59 :: (tp ++ 10 :: rest)) t hst (by omega)
    pre.length newFnvHash]
  have hp_lt : pre.length + st.length < endPos := by omega
  have hgd : (pre ++ (st ++ (59 :: (tp ++ 10 :: rest)))).getD (pre.length + st.length) 0
      = 59 := by
    have h2 : pre ++ (st ++ (59 :: (tp ++ 10 :: rest))) =
        (pre ++ st) ++ (59 :: (tp ++ 10 :: rest)) := by simp
    rw [h2, show pre.length + st.length = (pre ++ st).length + 0 from by simp,
      getD_append_at]
    rfl
  rw [processLoop, dif_pos hp_lt, if_pos hgd]
  have hC : pre ++ (st ++ (59 :: (tp ++ 10 :: rest))) =
      (pre ++ (st ++ [59])) ++ (tp ++ 10 :: rest) := by simp
  have hlen2 : pre.length + st.length + 1 = (pre ++ (st ++ [59])).length := by
    simp only [List.length_append, List.length_cons, List.length_nil]
    omega
  have hfle : findLineEnd (pre ++ (st ++ (59 :: (tp ++ 10 :: rest))))
      (pre.length + st.length + 1) = pre.length + st.length + 1 + tp.length := by
    rw [hC, hlen2, findLineEnd_at _ tp rest htp]
  have hsta : extract (pre ++ (st ++ (59 :: (tp ++ 10 :: rest)))) pre.length
      (pre.length + st.length) = st :=
    extract_at pre st (59 :: (tp ++ 10 :: rest))
  have hext : extract (pre ++ (st ++ (59 :: (tp ++ 10 :: rest))))
      (pre.length + st.length + 1) (pre.length + st.length + 1 + tp.length) = tp := by
    rw [hC, hlen2]
    exact extract_at (pre ++ (st ++ [59])) tp (10 :: rest)
  rw [hfle, hsta, hext]
  have harith : pre.length + st.length + 1 + tp.length + 1 =
      pre.length + (lineBytes (st, tp)).length := by omega
  rw [harith]

theorem recFoldM_none (recs : List (List Nat × Int)) : recFoldM none recs = none := by
  induction recs with
  | nil => rfl
  | cons r rest ih => exact ih

theorem recordsOf_cons (st tp : List Nat) (ls : List (List Nat × List Nat)) :
    recordsOf ((st, tp) :: ls) = (st, bytesToFixedPointInt tp) :: recordsOf ls := rfl

theorem recFoldM_cons (t : hashtable) (r : List Nat × Int) (recs : List (List Nat × Int)) :
    recFoldM (some t) (r :: recs) =
      recFoldM (recordStep t (hashBytes newFnvHash r.1) r.1 r.2) recs := rfl

theorem processLoop_chunk :
    ∀ (ls : List (List Nat × List Nat)) (pre post : List Nat) (t : hashtable),
      (∀ p ∈ ls, wfLine p) →
      processLoop (pre ++ (linesBytes ls ++ post)) (pre.length + (linesBytes ls).length)
          pre.length pre.length newFnvHash t =
        recFoldM (some t) (recordsOf ls) := by
  intro ls
  induction ls with
  | nil =>
    intro pre post t _
    rw [processLoop, dif_neg (by simp [linesBytes])]
    rfl
  | cons p ls' ih =>
    intro pre post t hwf
    obtain ⟨st, tp⟩ := p
    have hwf0 : wfLine (st, tp) := hwf _ (List.mem_cons_self _ _)
    have hlines : linesBytes ((st, tp) :: ls') = lineBytes (st, tp) ++ linesBytes ls' := by
      simp [linesBytes]
    rw [hlines]
    have hdata : pre ++ ((lineBytes (st, tp) ++ linesBytes ls') ++ post) =
        pre ++ (lineBytes (st, tp) ++ (linesBytes ls' ++ post)) := by
      simp
    rw [hdata]
    have hend : pre.length + (lineBytes (st, tp)).length ≤
        pre.length + (lineBytes (st, tp) ++ linesBytes ls').length := by
      simp
    rw [processLoop_line (pre.length + (lineBytes (st, tp) ++ linesBytes ls').length) t
      pre st tp (linesBytes ls' ++ post) hwf0.1 hwf0.2 hend]
    rw [recordsOf_cons, recFoldM_cons]
    cases hr : recordStep t (hashBytes newFnvHash st) st (bytesToFixedPointInt tp) with
    | none => rw [recFoldM_none]
    | some r =>
      have hd2 : pre ++ (lineBytes (st, tp) ++ (linesBytes ls' ++ post)) =
          (pre ++ lineBytes (st, tp)) ++ (linesBytes ls' ++ post) := by
        simp
      have hi2 : pre.length + (lineBytes (st, tp)).length =
          (pre ++ lineBytes (st, tp)).length := by
        simp
      have he2 : pre.length + (lineBytes (st, tp) ++ linesBytes ls').length =
          (pre ++ lineBytes (st, tp)).length + (linesBytes ls').length := by
        simp
        omega
      rw [hd2, hi2, he2]
      exact ih (pre ++ lineBytes (st, tp)) post r
        (fun q hq => hwf q (List.mem_cons_of_mem _ hq))

theorem processData_chunk (ls : List (List Nat × List Nat)) (pre post : List Nat)
    (hwf : ∀ p ∈ ls, wfLine p) :
    processData (pre ++ (linesBytes ls ++ post)) pre.length
        (pre.length + (linesBytes ls).length) =
      recFoldM (some (NewHashTable (1 <<< 16))) (recordsOf ls) := by
  unfold processData
  exact processLoop_chunk ls pre post (NewHashTable (1 <<< 16)) hwf

/-! ## The stored-hash invariant -/

theorem getIdx_some_spec {ht : hashtable} {h : Nat} {key : List Nat} {j : Nat}
    (hg : ht.getIdx h key = some j) :
    j < ht.items.length ∧ (slotAt ht.items j).key = key ∧
    (slotAt ht.items j).value ≠ none := by
  rcases Nat.eq_zero_or_pos ht.items.length with hL | hL
  · unfold hashtable.getIdx at hg
    rw [hL] at hg
    exact Option.noConfusion hg
  · rw [getIdx_eq_scan ht h key hL] at hg
    cases hs : scanStop ht.items key h 0 with
    | none => rw [hs] at hg; exact Option.noConfusion hg
    | some d =>
      rw [hs] at hg
      obtain ⟨_, hd, hstop, _⟩ := scanStop_some hs
      have hg2 : (if (slotAt ht.items (probeIdx ht.items.length h d)).value = none
          then none else some (probeIdx ht.items.length h d)) = some j := hg
      by_cases hv : (slotAt ht.items (probeIdx ht.items.length h d)).value = none
      · rw [if_pos hv] at hg2; exact Option.noConfusion hg2
      · rw [if_neg hv] at hg2
        cases hg2
        have hk : (slotAt ht.items (probeIdx ht.items.length h d)).key = key := by
          rcases hstop with hst | hst
          · exact absurd hst hv
          · exact hst
        exact ⟨probeIdx_lt _ _ _ hL, hk, hv⟩

theorem hashInv_set {items : List item} {sz sz' : Nat} {j : Nat} {a : item}
    (hinv : hashInv ⟨items, sz⟩) (ha : a.value ≠ none → a.hash = fnvOf a.key) :
    hashInv ⟨items.set j a, sz'⟩ := by
  intro it hit hv
  rcases List.mem_or_eq_of_mem_set hit with hmem | heq
  · exact hinv it hmem hv
  · subst heq
    exact ha hv

theorem hashInv_updateSlot {items : List item} {sz sz' : Nat} {j : Nat} {temp : Int}
    (hinv : hashInv ⟨items, sz⟩) :
    hashInv ⟨updateSlotItems items j temp, sz'⟩ := by
  unfold updateSlotItems
  refine hashInv_set hinv ?_
  intro hv
  by_cases hj : j < items.length
  · have hmem : items.getD j default ∈ items := slotAt_mem hj
    have hne : (items.getD j default).value ≠ none := by
      intro h0
      rw [h0] at hv
      exact hv rfl
    exact hinv (items.getD j default) hmem hne
  · have h0 : items.getD j default = default := by
      rw [List.getD_eq_getElem?_getD, List.getElem?_eq_none (by omega)]
      rfl
    rw [h0] at hv
    exact absurd rfl hv

theorem hashInv_add {ht : hashtable} {h : Nat} {k : List Nat} {v : stats} {t' : hashtable}
    (hinv : hashInv ht) (hh : h = fnvOf k) (hadd : ht.add h k v = some t') :
    hashInv t' := by
  rcases Nat.eq_zero_or_pos ht.items.length with hL | hL
  · exfalso
    unfold hashtable.add at hadd
    rw [hL] at hadd
    exact Option.noConfusion hadd
  · rw [add_eq_scan ht h k v hL] at hadd
    cases hs : scanStop ht.items k h 0 with
    | none => rw [hs] at hadd; exact Option.noConfusion hadd
    | some d =>
      rw [hs] at hadd
      have hadd2 : (if (slotAt ht.items (probeIdx ht.items.length h d)).value = none
          then some (⟨ht.items.set (probeIdx ht.items.length h d) ⟨h, k, some v⟩,
            add64 ht.size 1⟩ : hashtable)
          else some ⟨ht.items.set (probeIdx ht.items.length h d)
            ⟨(slotAt ht.items (probeIdx ht.items.length h d)).hash,
             (slotAt ht.items (probeIdx ht.items.length h d)).key, some v⟩, ht.size⟩) =
          some t' := hadd
      by_cases hv : (slotAt ht.items (probeIdx ht.items.length h d)).value = none
      · rw [if_pos hv] at hadd2
        cases hadd2
        exact hashInv_set (fun it hit hv2 => hinv it hit hv2) (fun _ => hh)
      · rw [if_neg hv] at hadd2
        cases hadd2
        refine hashInv_set (fun it hit hv2 => hinv it hit hv2) ?_
        intro _
        exact hinv (slotAt ht.items (probeIdx ht.items.length h d))
          (slotAt_mem (probeIdx_lt ht.items.length h d hL)) hv

theorem hashInv_recordStep {res : hashtable} {h : Nat} {k : List Nat} {temp : Int}
    {r : hashtable} (hinv : hashInv res) (hh : h = fnvOf k)
    (hr : recordStep res h k temp = some r) : hashInv r := by
  unfold recordStep at hr
  cases hg : res.getIdx h k with
  | some j =>
    rw [hg] at hr
    cases hr
    exact hashInv_updateSlot (fun it hit hv => hinv it hit hv)
  | none =>
    rw [hg] at hr
    exact hashInv_add hinv hh hr

theorem hashInv_new (n : Nat) : hashInv (NewHashTable n) := by
  intro it hit hv
  have : it = default := List.eq_of_mem_replicate hit
  rw [this] at hv
  exact absurd rfl hv

theorem processLoop_hashInv {data : List Nat} {endPos : Nat} :
    ∀ {i start hash : Nat} {res t : hashtable}, hashInv res → start ≤ i →
      (i ≤ data.length → hash = fnvOf (extract data start i)) →
      processLoop data endPos i start hash res = some t → hashInv t := by
  have main : ∀ n i start hash res t, endPos - i ≤ n → hashInv res → start ≤ i →
      (i ≤ data.length → hash = fnvOf (extract data start i)) →
      processLoop data endPos i start hash res = some t → hashInv t := by
    intro n
    induction n with
    | zero =>
      intro i start hash res t hn hinv _ _ hp
      rw [processLoop, dif_neg (by omega)] at hp
      cases hp
      exact hinv
    | succ n ih =>
      intro i start hash res t hn hinv hsi hhash hp
      by_cases hi : i < endPos
      · rw [processLoop, dif_pos hi] at hp
        by_cases h59 : data.getD i 0 = 59
        · rw [if_pos h59] at hp
          have hilen : i < data.length := by
            by_contra hc
            rw [getD_ge_length data i (by omega)] at h59
            exact absurd h59 (by omega)
          have hhash2 : hash = fnvOf (extract data start i) := hhash (by omega)
          cases hr : recordStep res hash (extract data start i)
              (bytesToFixedPointInt (extract data (i + 1) (findLineEnd data (i + 1)))) with
          | none => rw [hr] at hp; exact Option.noConfusion hp
          | some r =>
            rw [hr] at hp
            have hge := findLineEnd_ge data (i + 1)
            refine ih (findLineEnd data (i + 1) + 1) (findLineEnd data (i + 1) + 1)
              newFnvHash r t (by omega) (hashInv_recordStep hinv hhash2 hr) (le_refl _)
              ?_ hp
            intro _
            rw [extract_nil]
            rfl
        · rw [if_neg h59] at hp
          by_cases h10 : data.getD i 0 = 10
          · rw [if_pos h10] at hp
            refine ih (i + 1) (i + 1) newFnvHash res t (by omega) hinv (le_refl _) ?_ hp
            intro _
            rw [extract_nil]
            rfl
          · rw [if_neg h10] at hp
            refine ih (i + 1) start (hashByte hash (data.getD i 0)) res t (by omega) hinv
              (by omega) ?_ hp
            intro hlen
            have hilen : i < data.length := by omega
            rw [extract_snoc data start i hsi hilen]
            unfold fnvOf hashBytes
            rw [List.foldl_append]
            rw [hhash (by omega)]
            rfl
      · rw [processLoop, dif_neg hi] at hp
        cases hp
        exact hinv
  intro i start hash res t hinv hsi hhash hp
  exact main (endPos - i) i start hash res t (le_refl _) hinv hsi hhash hp

theorem processData_hashInv {data : List Nat} {a b : Nat} {t : hashtable}
    (hp : processData data a b = some t) : hashInv t := by
  unfold processData at hp
  refine processLoop_hashInv (hashInv_new _) (le_refl _) ?_ hp
  intro _
  rw [extract_nil]
  rfl

theorem hashInv_mergeItem {res r : hashtable} {it : item} (hinv : hashInv res)
    (hit : it.value ≠ none → it.hash = fnvOf it.key)
    (hm : mergeItem res it = some r) : hashInv r := by
  unfold mergeItem at hm
  cases hv : it.value with
  | none => rw [hv] at hm; cases hm; exact hinv
  | some v =>
    rw [hv] at hm
    have hhash : it.hash = fnvOf it.key := hit (by rw [hv]; exact fun h => Option.noConfusion h)
    cases hg : res.getIdx it.hash it.key with
    | some j =>
      rw [hg] at hm
      cases hm
      unfold mergeSlotItems
      refine hashInv_set (fun it hit hv2 => hinv it hit hv2) ?_
      intro hv2
      by_cases hj : j < res.items.length
      · have hne : (res.items.getD j default).value ≠ none := by
          intro h0
          rw [h0] at hv2
          exact hv2 rfl
        exact hinv (res.items.getD j default) (slotAt_mem hj) hne
      · have h0 : res.items.getD j default = default := by
          rw [List.getD_eq_getElem?_getD, List.getElem?_eq_none (by omega)]
          rfl
        rw [h0] at hv2
        exact absurd rfl hv2
    | none =>
      rw [hg] at hm
      exact hashInv_add hinv hhash hm

theorem hashInv_mergeFold {its : List item} :
    ∀ {acc : Option hashtable} {t : hashtable},
      (∀ it ∈ its, it.value ≠ none → it.hash = fnvOf it.key) →
      (∀ a, acc = some a → hashInv a) →
      its.foldl (fun acc it => acc.bind (fun r => mergeItem r it)) acc = some t →
      hashInv t := by
  induction its with
  | nil => intro acc t _ hacc hf; exact hacc t hf
  | cons it rest ih =>
    intro acc t hits hacc hf
    refine ih (fun x hx => hits x (List.mem_cons_of_mem _ hx)) ?_ hf
    intro a ha
    cases acc with
    | none => exact Option.noConfusion ha
    | some r0 =>
      exact hashInv_mergeItem (hacc r0 rfl) (hits it (List.mem_cons_self _ _)) ha

theorem mergeHashTables_hashInv {tables : List hashtable} {t : hashtable}
    (htabs : ∀ tb ∈ tables, hashInv tb) (hm : mergeHashTables tables = some t) :
    hashInv t := by
  unfold mergeHashTables at hm
  have main : ∀ (ts : List hashtable) (acc : Option hashtable),
      (∀ tb ∈ ts, hashInv tb) →
      (∀ a, acc = some a → hashInv a) →
      ts.foldl (fun acc tb => tb.items.foldl
        (fun acc it => acc.bind (fun r => mergeItem r it)) acc) acc = some t →
      hashInv t := by
    intro ts
    induction ts with
    | nil => intro acc _ hacc hf; exact hacc t hf
    | cons tb rest ih =>
      intro acc hts hacc hf
      refine ih _ (fun x hx => hts x (List.mem_cons_of_mem _ hx)) ?_ hf
      intro a ha
      exact hashInv_mergeFold (hts tb (List.mem_cons_self _ _)) hacc ha
  exact main tables _ htabs (fun a ha => by cases ha; exact hashInv_new _) hm

/-- C10: in every table produced by `processData`, and in every merge of
tables satisfying it, each populated slot's stored hash equals the FNV-1a
accumulation of that slot's key bytes — the invariant the merger relies on
when it reuses `item.hash` for its lookups instead of rehashing the key. -/
theorem spec_C10_storedHash :
    (∀ data a b t, processData data a b = some t → hashInv t) ∧
    (∀ tables t, (∀ tb ∈ tables, hashInv tb) → mergeHashTables tables = some t →
      hashInv t) := by
  constructor
  · intro data a b t hp
    exact processData_hashInv hp
  · intro tables t htabs hm
    exact mergeHashTables_hashInv htabs hm

/-- Witness for C10 at a concrete empty run. -/
theorem spec_C10_storedHash_witness :
    processData [] 0 0 = some (NewHashTable (1 <<< 16)) ∧
    hashInv (NewHashTable (1 <<< 16)) := by
  have h : processData [] 0 0 = some (NewHashTable (1 <<< 16)) := by
    unfold processData
    rw [processLoop, dif_neg (by omega)]
  exact ⟨h, spec_C10_storedHash.1 [] 0 0 _ h⟩

/-! ## Association-list model lemmas -/

theorem lookupAL_none_iff {al : List (List Nat × stats)} {k : List Nat} :
    lookupAL al k = none ↔ ∀ p ∈ al, p.1 ≠ k := by
  unfold lookupAL
  rw [Option.map_eq_none', List.find?_eq_none]
  constructor
  · intro h p hp
    simpa using h p hp
  · intro h p hp
    simpa using h p hp

theorem lookupAL_append_self {al : List (List Nat × stats)} {k : List Nat} (s : stats)
    (hnone : lookupAL al k = none) : lookupAL (al ++ [(k, s)]) k = some s := by
  unfold lookupAL at *
  rw [Option.map_eq_none'] at hnone
  rw [List.find?_append, hnone]
  simp

theorem lookupAL_append_other {al : List (List Nat × stats)} {k k' : List Nat} (s : stats)
    (hne : k' ≠ k) : lookupAL (al ++ [(k', s)]) k = lookupAL al k := by
  unfold lookupAL
  rw [List.find?_append]
  cases hf : List.find? (fun p => decide (p.1 = k)) al with
  | some p => simp
  | none => simp [hne]

theorem lookupAL_alSet_self {al : List (List Nat × stats)} {k : List Nat} (s : stats) :
    lookupAL (alSet al k s) k = (lookupAL al k).map (fun _ => s) := by
  unfold lookupAL alSet
  induction al with
  | nil => rfl
  | cons p rest ih =>
    simp only [List.map_cons, List.find?_cons]
    by_cases hp : p.1 = k
    · rw [if_pos hp]
      rw [show (decide ((p.1, s).1 = k)) = true from by simpa using hp]
      simp
    · rw [if_neg hp]
      rw [show (decide (p.1 = k)) = false from by simpa using hp]
      exact ih

theorem lookupAL_alSet_other {al : List (List Nat × stats)} {k k' : List Nat} (s : stats)
    (hne : k ≠ k') : lookupAL (alSet al k' s) k = lookupAL al k := by
  unfold lookupAL alSet
  induction al with
  | nil => rfl
  | cons p rest ih =>
    simp only [List.map_cons, List.find?_cons]
    by_cases hp : p.1 = k'
    · rw [if_pos hp]
      rw [show (decide ((p.1, s).1 = k)) = false from by
        simp only [decide_eq_false_iff_not]
        intro h
        exact hne (by rw [← h]; exact hp)]
      exact ih
    · rw [if_neg hp]
      cases hd : decide (p.1 = k) with
      | false => exact ih
      | true => rfl

theorem alSet_keys (al : List (List Nat × stats)) (k : List Nat) (s : stats) :
    (alSet al k s).map Prod.fst = al.map Prod.fst := by
  unfold alSet
  induction al with
  | nil => rfl
  | cons p rest ih =>
    simp only [List.map_cons]
    by_cases hp : p.1 = k
    · rw [if_pos hp, ih]
    · rw [if_neg hp, ih]

theorem alSet_length (al : List (List Nat × stats)) (k : List Nat) (s : stats) :
    (alSet al k s).length = al.length := by
  unfold alSet
  rw [List.length_map]

theorem lookupAL_mem {al : List (List Nat × stats)} {k : List Nat} {s : stats}
    (h : lookupAL al k = some s) : (k, s) ∈ al := by
  unfold lookupAL at h
  cases hf : List.find? (fun p => decide (p.1 = k)) al with
  | none => rw [hf] at h; exact Option.noConfusion h
  | some p =>
    rw [hf] at h
    have hp : p.1 = k := by simpa using List.find?_some hf
    have hs : p.2 = s := by simpa using h
    have hmem := List.mem_of_find?_eq_some hf
    rw [← hp, ← hs]
    exact hmem

theorem mem_lookupAL {al : List (List Nat × stats)}
    (hnodup : (al.map Prod.fst).Nodup) {k : List Nat} {s : stats} (h : (k, s) ∈ al) :
    lookupAL al k = some s := by
  induction al with
  | nil => cases h
  | cons p rest ih =>
    rcases List.mem_cons.mp h with he | hm
    · unfold lookupAL
      rw [List.find?_cons, ← he]
      simp
    · have hk : k ∈ rest.map Prod.fst := by
        exact List.mem_map.mpr ⟨(k, s), hm, rfl⟩
      have hne : p.1 ≠ k := by
        intro he2
        rw [List.map_cons] at hnodup
        exact (List.nodup_cons.mp hnodup).1 (he2 ▸ hk)
      unfold lookupAL
      rw [List.find?_cons]
      rw [show (decide (p.1 = k)) = false from by simpa using hne]
      exact ih (by rw [List.map_cons] at hnodup; exact (List.nodup_cons.mp hnodup).2) hm

theorem countOccupied_set {items : List item} :
    ∀ {j : Nat}, j < items.length → ∀ (a : item),
      countOccupied (items.set j a) + (if (slotAt items j).value ≠ none then 1 else 0) =
        countOccupied items + (if a.value ≠ none then 1 else 0) := by
  induction items with
  | nil =>
    intro j hj
    exact absurd hj (by simp)
  | cons x xs ih =>
    intro j hj a
    cases j with
    | zero =>
      show countOccupied (a :: xs) + _ = _
      unfold countOccupied
      rw [List.countP_cons, List.countP_cons]
      have hslot : slotAt (x :: xs) 0 = x := rfl
      rw [hslot]
      by_cases hx : x.value = none <;> by_cases ha : a.value = none <;>
        simp [hx, ha] <;> omega
    | succ j =>
      show countOccupied (x :: xs.set j a) + _ = _
      unfold countOccupied
      rw [List.countP_cons, List.countP_cons]
      have hslot : slotAt (x :: xs) (j + 1) = slotAt xs j := rfl
      rw [hslot]
      have := ih (by simpa using Nat.lt_of_succ_lt_succ hj) a
      unfold countOccupied at this
      omega

theorem exists_empty_slot {items : List item} (h : countOccupied items < items.length) :
    ∃ j, j < items.length ∧ (slotAt items j).value = none := by
  by_contra hc
  push_neg at hc
  have heq : countOccupied items = items.length := by
    unfold countOccupied
    refine List.countP_eq_length.mpr ?_
    intro it hit
    obtain ⟨n, hn, he⟩ := List.mem_iff_getElem.mp hit
    have h2 := hc n hn
    rw [slotAt_getElem hn, he] at h2
    simpa using h2
  omega

theorem scanStop_eq_some {items : List item} {key : List Nat} {h d : Nat}
    (hd : d < items.length) (hstop : stopCond items key h d)
    (hpre : ∀ e < d, ¬ stopCond items key h e) :
    scanStop items key h 0 = some d := by
  cases hs : scanStop items key h 0 with
  | none => exact absurd hstop (scanStop_none_all hs d (Nat.zero_le _) hd)
  | some d' =>
    obtain ⟨_, hd', hstop', hpre'⟩ := scanStop_some hs
    rcases Nat.lt_trichotomy d' d with hc | hc | hc
    · exact absurd hstop' (hpre d' hc)
    · rw [hc]
    · exact absurd hstop (hpre' d (Nat.zero_le _) hc)

theorem TInv_key_unique {t : hashtable} {al : List (List Nat × stats)} (hinv : TInv t al)
    {j₁ j₂ : Nat} (h₁ : j₁ < t.items.length) (h₂ : j₂ < t.items.length)
    (ho₁ : (slotAt t.items j₁).value ≠ none) (ho₂ : (slotAt t.items j₂).value ≠ none)
    (hk : (slotAt t.items j₁).key = (slotAt t.items j₂).key) : j₁ = j₂ := by
  obtain ⟨d₁, hd₁, hjd₁, hpre₁⟩ := hinv.pathOk j₁ h₁ ho₁
  obtain ⟨d₂, hd₂, hjd₂, hpre₂⟩ := hinv.pathOk j₂ h₂ ho₂
  rcases Nat.lt_trichotomy d₁ d₂ with hc | hc | hc
  · exfalso
    have hx := hpre₂ d₁ hc
    rw [← hk] at hx
    rw [← hjd₁] at hx
    exact hx.2 rfl
  · rw [hjd₁, hjd₂, hc, hk]
  · exfalso
    have hx := hpre₁ d₂ hc
    rw [hk] at hx
    rw [← hjd₂] at hx
    exact hx.2 rfl

/-! ## Table refinement: lookups and updates under the invariant -/

theorem TInv_no_key {t : hashtable} {al : List (List Nat × stats)} (hinv : TInv t al)
    {k : List Nat} (hnone : lookupAL al k = none) :
    ∀ j, j < t.items.length → (slotAt t.items j).value ≠ none →
      (slotAt t.items j).key ≠ k := by
  intro j hj hocc hkey
  obtain ⟨s, hs⟩ := Option.ne_none_iff_exists'.mp hocc
  have hm := hinv.alMatch j hj s hs
  rw [hkey, hnone] at hm
  exact Option.noConfusion hm

theorem TInv_getIdx_none {t : hashtable} {al : List (List Nat × stats)} (hinv : TInv t al)
    {k : List Nat} (hnone : lookupAL al k = none) (hL : 0 < t.items.length) :
    t.getIdx (fnvOf k) k = none := by
  rw [getIdx_eq_scan t (fnvOf k) k hL]
  cases hs : scanStop t.items k (fnvOf k) 0 with
  | none => rfl
  | some d =>
    obtain ⟨_, hd, hstop, _⟩ := scanStop_some hs
    have hv : (slotAt t.items (probeIdx t.items.length (fnvOf k) d)).value = none := by
      rcases hstop with h | h
      · exact h
      · by_contra hocc
        exact TInv_no_key hinv hnone _ (probeIdx_lt _ _ _ hL) hocc h
    show (if (slotAt t.items (probeIdx t.items.length (fnvOf k) d)).value = none
      then none else some (probeIdx t.items.length (fnvOf k) d)) = none
    rw [if_pos hv]

theorem TInv_getIdx_some {t : hashtable} {al : List (List Nat × stats)} (hinv : TInv t al)
    {k : List Nat} {s : stats} (hsome : lookupAL al k = some s) (hL : 0 < t.items.length) :
    ∃ j, t.getIdx (fnvOf k) k = some j ∧ j < t.items.length ∧
      (slotAt t.items j).key = k ∧ (slotAt t.items j).value = some s := by
  obtain ⟨j, hj, hkey, hval⟩ := hinv.complete k s hsome
  have hocc : (slotAt t.items j).value ≠ none := by
    rw [hval]; exact fun h => Option.noConfusion h
  obtain ⟨d, hd, hjd, hpre⟩ := hinv.pathOk j hj hocc
  rw [hkey] at hjd hpre
  simp only [homeIdx] at hjd hpre
  have hstop : stopCond t.items k (fnvOf k) d := by
    right
    show (slotAt t.items (probeIdx t.items.length (fnvOf k) d)).key = k
    rw [← hjd]
    exact hkey
  have hfirst : ∀ e, e < d → ¬ stopCond t.items k (fnvOf k) e := by
    intro e he hstope
    have hx := hpre e he
    rcases hstope with hcase | hcase
    · exact hx.1 hcase
    · exact hx.2 hcase
  have hscan := scanStop_eq_some hd hstop hfirst
  refine ⟨j, ?_, hj, hkey, hval⟩
  rw [getIdx_eq_scan t (fnvOf k) k hL, hscan]
  show (if (slotAt t.items (probeIdx t.items.length (fnvOf k) d)).value = none
    then none else some (probeIdx t.items.length (fnvOf k) d)) = some j
  rw [if_neg (by rw [← hjd]; exact hocc), ← hjd]

theorem TInv_overwrite {t : hashtable} {al : List (List Nat × stats)} (hinv : TInv t al)
    {j : Nat} {k : List Nat} {s s' : stats} (hj : j < t.items.length)
    (hkey : (slotAt t.items j).key = k) (hval : (slotAt t.items j).value = some s)
    (sz' : Nat) :
    TInv ⟨t.items.set j ⟨(slotAt t.items j).hash, (slotAt t.items j).key, some s'⟩, sz'⟩
      (alSet al k s') := by
  set a : item := ⟨(slotAt t.items j).hash, (slotAt t.items j).key, some s'⟩ with ha
  have hlookup : lookupAL al k = some s := by
    have hsl := hinv.alMatch j hj s hval
    rwa [hkey] at hsl
  have hself : slotAt (t.items.set j a) j = a := slotAt_set_self hj a
  have hoth : ∀ j', j' ≠ j → slotAt (t.items.set j a) j' = slotAt t.items j' := by
    intro j' hne
    exact slotAt_set_ne (fun h => hne h.symm) a
  have hkeys : ∀ j', (slotAt (t.items.set j a) j').key = (slotAt t.items j').key := by
    intro j'
    by_cases hx : j' = j
    · subst hx; rw [hself]
    · rw [hoth j' hx]
  have hhashes : ∀ j', (slotAt (t.items.set j a) j').hash = (slotAt t.items j').hash := by
    intro j'
    by_cases hx : j' = j
    · subst hx; rw [hself]
    · rw [hoth j' hx]
  have hoccIff : ∀ j', ((slotAt (t.items.set j a) j').value ≠ none ↔
      (slotAt t.items j').value ≠ none) := by
    intro j'
    by_cases hx : j' = j
    · subst hx
      rw [hself, hval]
      simp [ha]
    · rw [hoth j' hx]
  refine ⟨?_, ?_, ?_, ?_, ?_, ?_⟩
  · -- hashOk
    intro j' hj' hocc'
    show (slotAt (t.items.set j a) j').hash = fnvOf (slotAt (t.items.set j a) j').key
    rw [hhashes j', hkeys j']
    rw [List.length_set] at hj'
    exact hinv.hashOk j' hj' ((hoccIff j').mp hocc')
  · -- alMatch
    intro j' hj' x hx
    rw [List.length_set] at hj'
    show lookupAL (alSet al k s') (slotAt (t.items.set j a) j').key = some x
    rw [hkeys j']
    by_cases hxx : j' = j
    · subst hxx
      rw [hself] at hx
      have hxs : x = s' := by
        have : a.value = some x := hx
        rw [ha] at this
        exact (Option.some.injEq .. ▸ this).symm
      rw [hkey, hxs, lookupAL_alSet_self, hlookup]
      rfl
    · rw [hoth j' hxx] at hx
      have hne : (slotAt t.items j').key ≠ k := by
        intro hkk
        have hocc' : (slotAt t.items j').value ≠ none := by
          rw [hx]; exact fun h => Option.noConfusion h
        have hoccj : (slotAt t.items j).value ≠ none := by
          rw [hval]; exact fun h => Option.noConfusion h
        exact hxx (TInv_key_unique hinv hj' hj hocc' hoccj (by rw [hkk, hkey]))
      rw [lookupAL_alSet_other _ hne]
      exact hinv.alMatch j' hj' x hx
  · -- complete
    intro k'' x hx
    by_cases hkk : k'' = k
    · subst hkk
      rw [lookupAL_alSet_self, hlookup] at hx
      have hxs : x = s' := by
        simpa using hx.symm
      refine ⟨j, by rw [List.length_set]; exact hj, ?_, ?_⟩
      · rw [hkeys j]; exact hkey
      · rw [hself, hxs]
    · rw [lookupAL_alSet_other _ hkk] at hx
      obtain ⟨j'', hj'', hk'', hv''⟩ := hinv.complete k'' x hx
      have hne : j'' ≠ j := by
        intro he
        rw [he, hkey] at hk''
        exact hkk hk''.symm
      refine ⟨j'', by rw [List.length_set]; exact hj'', ?_, ?_⟩
      · rw [hoth j'' hne]; exact hk''
      · rw [hoth j'' hne]; exact hv''
  · -- pathOk
    intro j' hj' hocc'
    rw [List.length_set] at hj'
    obtain ⟨d, hd, hjd, hpre⟩ := hinv.pathOk j' hj' ((hoccIff j').mp hocc')
    refine ⟨d, by rw [List.length_set]; exact hd, ?_, ?_⟩
    · show j' = homeIdx (t.items.set j a).length (slotAt (t.items.set j a) j').key d
      rw [List.length_set, hkeys j']
      exact hjd
    · intro e he
      have hx := hpre e he
      constructor
      · show (slotAt (t.items.set j a) (homeIdx (t.items.set j a).length
          (slotAt (t.items.set j a) j').key e)).value ≠ none
        rw [List.length_set, hkeys j']
        exact (hoccIff _).mpr hx.1
      · show (slotAt (t.items.set j a) (homeIdx (t.items.set j a).length
          (slotAt (t.items.set j a) j').key e)).key ≠ (slotAt (t.items.set j a) j').key
        rw [List.length_set, hkeys j']
        rw [hkeys (homeIdx t.items.length (slotAt t.items j').key e)]
        exact hx.2
  · -- alNodup
    rw [alSet_keys]
    exact hinv.alNodup
  · -- sizeOk
    show countOccupied (t.items.set j a) = (alSet al k s').length
    have hcount := countOccupied_set hj a
    have h1 : (if (slotAt t.items j).value ≠ none then 1 else 0) = 1 := by
      rw [hval]; simp
    have h2 : (if a.value ≠ none then 1 else 0) = 1 := by
      rw [ha]; simp
    rw [alSet_length]
    rw [h1, h2] at hcount
    have := hinv.sizeOk
    omega

theorem TInv_insert {t : hashtable} {al : List (List Nat × stats)} (hinv : TInv t al)
    {k : List Nat} (v : stats) (hnone : lookupAL al k = none)
    (hcount : countOccupied t.items < t.items.length) :
    ∃ t', t.add (fnvOf k) k v = some t' ∧ TInv t' (al ++ [(k, v)]) := by
  have hL : 0 < t.items.length := by omega
  have hnok := TInv_no_key hinv hnone
  obtain ⟨je, hje, hjempty⟩ := exists_empty_slot hcount
  obtain ⟨de, hde, hpde⟩ := probeIdx_surj (fnvOf k) je hL hje
  have hstope : stopCond t.items k (fnvOf k) de := Or.inl (by rw [hpde]; exact hjempty)
  cases hs : scanStop t.items k (fnvOf k) 0 with
  | none => exact absurd hstope (scanStop_none_all hs de (Nat.zero_le _) hde)
  | some d0 =>
    obtain ⟨_, hd0, hstop0, hpre0⟩ := scanStop_some hs
    have hv : (slotAt t.items (probeIdx t.items.length (fnvOf k) d0)).value = none := by
      rcases hstop0 with h | h
      · exact h
      · by_contra hocc
        exact hnok _ (probeIdx_lt _ _ _ hL) hocc h
    set j0 : Nat := probeIdx t.items.length (fnvOf k) d0 with hj0
    set a : item := ⟨fnvOf k, k, some v⟩ with ha
    have hj0L : j0 < t.items.length := probeIdx_lt _ _ _ hL
    have hadd : t.add (fnvOf k) k v = some ⟨t.items.set j0 a, add64 t.size 1⟩ := by
      rw [add_eq_scan t (fnvOf k) k v hL, hs]
      show (if (slotAt t.items (probeIdx t.items.length (fnvOf k) d0)).value = none
        then some (⟨t.items.set (probeIdx t.items.length (fnvOf k) d0) ⟨fnvOf k, k, some v⟩,
          add64 t.size 1⟩ : hashtable)
        else _) = _
      rw [if_pos hv]
    refine ⟨_, hadd, ?_⟩
    have hself : slotAt (t.items.set j0 a) j0 = a := slotAt_set_self hj0L a
    have hoth : ∀ j', j' ≠ j0 → slotAt (t.items.set j0 a) j' = slotAt t.items j' := by
      intro j' hne
      exact slotAt_set_ne (fun h => hne h.symm) a
    have hoccne : ∀ j', (slotAt t.items j').value ≠ none → j' ≠ j0 := by
      intro j' hocc he
      rw [he] at hocc
      exact hocc hv
    refine ⟨?_, ?_, ?_, ?_, ?_, ?_⟩
    · -- hashOk
      intro j' hj' hocc'
      by_cases hx : j' = j0
      · subst hx
        rw [hself]
      · rw [hoth j' hx] at hocc' ⊢
        rw [List.length_set] at hj'
        exact hinv.hashOk j' hj' hocc'
    · -- alMatch
      intro j' hj' x hx
      rw [List.length_set] at hj'
      by_cases hxx : j' = j0
      · subst hxx
        rw [hself] at hx ⊢
        have hxv : x = v := by
          have hax : a.value = some x := hx
          rw [ha] at hax
          simpa using hax.symm
        show lookupAL (al ++ [(k, v)]) a.key = some x
        rw [ha, hxv]
        exact lookupAL_append_self v hnone
      · rw [hoth j' hxx] at hx ⊢
        have hocc' : (slotAt t.items j').value ≠ none := by
          rw [hx]; exact fun h => Option.noConfusion h
        have hne : k ≠ (slotAt t.items j').key :=
          fun h => hnok j' hj' hocc' h.symm
        rw [lookupAL_append_other _ hne]
        exact hinv.alMatch j' hj' x hx
    · -- complete
      intro k'' x hx
      by_cases hkk : k'' = k
      · subst hkk
        rw [lookupAL_append_self v hnone] at hx
        have hxv : x = v := by simpa using hx.symm
        refine ⟨j0, by rw [List.length_set]; exact hj0L, ?_, ?_⟩
        · rw [hself, ha]
        · rw [hself, ha, hxv]
      · have hne : k ≠ k'' := fun h => hkk h.symm
        rw [lookupAL_append_other _ hne] at hx
        obtain ⟨j'', hj'', hk'', hv''⟩ := hinv.complete k'' x hx
        have hocc'' : (slotAt t.items j'').value ≠ none := by
          rw [hv'']; exact fun h => Option.noConfusion h
        have hne2 : j'' ≠ j0 := hoccne j'' hocc''
        refine ⟨j'', by rw [List.length_set]; exact hj'', ?_, ?_⟩
        · rw [hoth j'' hne2]; exact hk''
        · rw [hoth j'' hne2]; exact hv''
    · -- pathOk
      intro j' hj' hocc'
      rw [List.length_set] at hj'
      by_cases hx : j' = j0
      · subst hx
        refine ⟨d0, by rw [List.length_set]; exact hd0, ?_, ?_⟩
        · show j0 = homeIdx (t.items.set j0 a).length (slotAt (t.items.set j0 a) j0).key d0
          rw [List.length_set, hself, ha]
          exact hj0
        · intro e he
          have hne : probeIdx t.items.length (fnvOf k) e ≠ j0 := by
            rw [hj0]
            intro heq
            exact absurd (probeIdx_inj hL (lt_trans he hd0) hd0 heq) (by omega)
          have hnostop := hpre0 e (Nat.zero_le _) he
          unfold stopCond at hnostop
          push_neg at hnostop
          constructor
          · show (slotAt (t.items.set j0 a) (homeIdx (t.items.set j0 a).length
              (slotAt (t.items.set j0 a) j0).key e)).value ≠ none
            rw [List.length_set, hself, ha]
            show (slotAt (t.items.set j0 a) (homeIdx t.items.length k e)).value ≠ none
            rw [show homeIdx t.items.length k e = probeIdx t.items.length (fnvOf k) e from rfl]
            rw [hoth _ hne]
            exact hnostop.1
          · show (slotAt (t.items.set j0 a) (homeIdx (t.items.set j0 a).length
              (slotAt (t.items.set j0 a) j0).key e)).key ≠ (slotAt (t.items.set j0 a) j0).key
            rw [List.length_set, hself, ha]
            show (slotAt (t.items.set j0 a) (homeIdx t.items.length k e)).key ≠ k
            rw [show homeIdx t.items.length k e = probeIdx t.items.length (fnvOf k) e from rfl]
            rw [hoth _ hne]
            exact hnostop.2
      · rw [hoth j' hx] at hocc'
        obtain ⟨d, hd, hjd, hpre⟩ := hinv.pathOk j' hj' hocc'
        refine ⟨d, by rw [List.length_set]; exact hd, ?_, ?_⟩
        · show j' = homeIdx (t.items.set j0 a).length (slotAt (t.items.set j0 a) j').key d
          rw [List.length_set, hoth j' hx]
          exact hjd
        · intro e he
          have hp := hpre e he
          have hne : homeIdx t.items.length (slotAt t.items j').key e ≠ j0 :=
            hoccne _ hp.1
          constructor
          · show (slotAt (t.items.set j0 a) (homeIdx (t.items.set j0 a).length
              (slotAt (t.items.set j0 a) j').key e)).value ≠ none
            rw [List.length_set, hoth j' hx, hoth _ hne]
            exact hp.1
          · show (slotAt (t.items.set j0 a) (homeIdx (t.items.set j0 a).length
              (slotAt (t.items.set j0 a) j').key e)).key ≠
              (slotAt (t.items.set j0 a) j').key
            rw [List.length_set, hoth j' hx, hoth _ hne]
            exact hp.2
    · -- alNodup
      rw [List.map_append]
      refine List.Nodup.append hinv.alNodup (by simp) ?_
      intro x hx1 hx2
      simp only [List.map_cons, List.map_nil, List.mem_singleton] at hx2
      obtain ⟨p, hp, hpx⟩ := List.mem_map.mp hx1
      rw [hx2] at hpx
      exact (lookupAL_none_iff.mp hnone p hp) hpx
    · -- sizeOk
      show countOccupied (t.items.set j0 a) = (al ++ [(k, v)]).length
      have hcset := countOccupied_set hj0L a
      have h1 : (if (slotAt t.items j0).value ≠ none then 1 else 0) = 0 := by
        rw [show (slotAt t.items j0).value = none from hv]
        simp
      have h2 : (if a.value ≠ none then 1 else 0) = 1 := by
        rw [ha]; simp
      rw [h1, h2] at hcset
      have hsz := hinv.sizeOk
      rw [List.length_append]
      simp only [List.length_cons, List.length_nil]
      omega

theorem slotAt_replicate (n j : Nat) : slotAt (List.replicate n (default : item)) j = default := by
  unfold slotAt
  by_cases hj : j < n
  · rw [List.getD_eq_getElem?_getD,
      List.getElem?_eq_getElem (by simpa using hj), List.getElem_replicate]
    rfl
  · rw [List.getD_eq_getElem?_getD, List.getElem?_eq_none (by simpa using hj)]
    rfl

theorem TInv_new (n : Nat) : TInv (NewHashTable n) [] := by
  refine ⟨?_, ?_, ?_, ?_, ?_, ?_⟩
  · intro j _ hocc
    have hdef : slotAt (NewHashTable n).items j = default := slotAt_replicate n j
    rw [hdef] at hocc
    exact absurd rfl hocc
  · intro j _ s hval
    have hdef : slotAt (NewHashTable n).items j = default := slotAt_replicate n j
    rw [hdef] at hval
    exact Option.noConfusion hval
  · intro k s hl
    exact Option.noConfusion hl
  · intro j _ hocc
    have hdef : slotAt (NewHashTable n).items j = default := slotAt_replicate n j
    rw [hdef] at hocc
    exact absurd rfl hocc
  · exact List.nodup_nil
  · show countOccupied (List.replicate n default) = 0
    unfold countOccupied
    rw [List.countP_eq_zero]
    intro a ha
    rw [List.eq_of_mem_replicate ha]
    decide

theorem alStep_keys_sub {al : List (List Nat × stats)} {S : List (List Nat)}
    (hal : ∀ p ∈ al, p.1 ∈ S) {k : List Nat} (hk : k ∈ S) (temp : Int) :
    ∀ p ∈ alStep al (k, temp), p.1 ∈ S := by
  intro p hp
  unfold alStep at hp
  cases hl : lookupAL al (k, temp).1 with
  | none =>
    rw [hl] at hp
    rcases List.mem_append.mp hp with hm | hm
    · exact hal p hm
    · rw [List.mem_singleton.mp hm]
      exact hk
  | some s =>
    rw [hl] at hp
    have : p.1 ∈ (alSet al (k, temp).1 (updStats s (k, temp).2)).map Prod.fst :=
      List.mem_map.mpr ⟨p, hp, rfl⟩
    rw [alSet_keys] at this
    obtain ⟨q, hq, hq2⟩ := List.mem_map.mp this
    rw [← hq2]
    exact hal q hq

theorem nodup_subset_length {l₁ l₂ : List (List Nat)} (h₁ : l₁.Nodup) (hsub : l₁ ⊆ l₂) :
    l₁.length ≤ l₂.length := by
  have h1 : l₁.toFinset.card = l₁.length := List.toFinset_card_of_nodup h₁
  have h2 : l₂.toFinset.card ≤ l₂.length := l₂.toFinset_card_le
  have h3 : l₁.toFinset ⊆ l₂.toFinset := by
    intro x hx
    rw [List.mem_toFinset] at hx ⊢
    exact hsub hx
  have := Finset.card_le_card h3
  omega

theorem recordStep_sim {t : hashtable} {al : List (List Nat × stats)} (hinv : TInv t al)
    (k : List Nat) (temp : Int) (hcap : al.length < t.items.length) :
    ∃ t', recordStep t (fnvOf k) k temp = some t' ∧ TInv t' (alStep al (k, temp)) ∧
      t'.items.length = t.items.length := by
  have hL : 0 < t.items.length := by omega
  cases hl : lookupAL al k with
  | some s =>
    have hstep : alStep al (k, temp) = alSet al k (updStats s temp) := by
      unfold alStep
      rw [show lookupAL al (k, temp).1 = some s from hl]
    rw [hstep]
    obtain ⟨j, hgidx, hj, hkey, hval⟩ := TInv_getIdx_some hinv hl hL
    unfold recordStep
    rw [hgidx]
    refine ⟨_, rfl, ?_, by unfold updateSlotItems; rw [List.length_set]⟩
    have heq : updateSlotItems t.items j temp =
        t.items.set j ⟨(slotAt t.items j).hash, (slotAt t.items j).key,
          some (updStats s temp)⟩ := by
      show t.items.set j ⟨(slotAt t.items j).hash, (slotAt t.items j).key,
          Option.map (fun s => updStats s temp) (slotAt t.items j).value⟩ =
        t.items.set j ⟨(slotAt t.items j).hash, (slotAt t.items j).key,
          some (updStats s temp)⟩
      rw [hval]
      rfl
    rw [heq]
    exact TInv_overwrite hinv hj hkey hval t.size
  | none =>
    have hstep : alStep al (k, temp) = al ++ [(k, statsInit temp)] := by
      unfold alStep
      rw [show lookupAL al (k, temp).1 = none from hl]
    rw [hstep]
    unfold recordStep
    rw [TInv_getIdx_none hinv hl hL]
    have hcount : countOccupied t.items < t.items.length := by
      rw [hinv.sizeOk]; exact hcap
    obtain ⟨t', hadd, hTI⟩ := TInv_insert hinv (statsInit temp) hl hcount
    exact ⟨t', hadd, hTI, add_items_length hadd⟩

theorem recFoldM_sim {S : List (List Nat)} :
    ∀ (recs : List (List Nat × Int)) {t : hashtable} {al : List (List Nat × stats)},
      TInv t al → (∀ p ∈ al, p.1 ∈ S) → (∀ r ∈ recs, r.1 ∈ S) → S.Nodup →
      S.length < t.items.length →
      ∃ t', recFoldM (some t) recs = some t' ∧ TInv t' (alFold al recs) ∧
        (∀ p ∈ alFold al recs, p.1 ∈ S) ∧ t'.items.length = t.items.length := by
  intro recs
  induction recs with
  | nil =>
    intro t al hinv hal _ _ _
    exact ⟨t, rfl, hinv, hal, rfl⟩
  | cons r rest ih =>
    intro t al hinv hal hrecs hS hcap
    obtain ⟨k, temp⟩ := r
    have hallen : al.length ≤ S.length := by
      have h1 : (al.map Prod.fst).Nodup := hinv.alNodup
      have h2 : al.map Prod.fst ⊆ S := by
        intro x hx
        obtain ⟨p, hp, hpx⟩ := List.mem_map.mp hx
        rw [← hpx]
        exact hal p hp
      have := nodup_subset_length h1 h2
      rw [List.length_map] at this
      exact this
    obtain ⟨t₁, hstep, hinv₁, hal₁⟩ :=
      recordStep_sim hinv k temp (by omega)
    have hconsEq : recFoldM (some t) ((k, temp) :: rest) =
        recFoldM (recordStep t (fnvOf k) k temp) rest := rfl
    have hfoldEq : alFold al ((k, temp) :: rest) = alFold (alStep al (k, temp)) rest := rfl
    rw [hconsEq, hstep, hfoldEq]
    have hkS : k ∈ S := hrecs (k, temp) (List.mem_cons_self _ _)
    obtain ⟨t', hrest, hinv', hsub', hlen'⟩ := ih hinv₁ (alStep_keys_sub hal hkS temp)
      (fun x hx => hrecs x (List.mem_cons_of_mem _ hx)) hS (by omega)
    exact ⟨t', hrest, hinv', hsub', by omega⟩

theorem TInv_al_len {t : hashtable} {al : List (List Nat × stats)}
    {S : List (List Nat)} (hinv : TInv t al) (hal : ∀ p ∈ al, p.1 ∈ S) :
    al.length ≤ S.length := by
  have h1 : (al.map Prod.fst).Nodup := hinv.alNodup
  have h2 : al.map Prod.fst ⊆ S := by
    intro x hx
    obtain ⟨p, hp, hpx⟩ := List.mem_map.mp hx
    rw [← hpx]
    exact hal p hp
  have := nodup_subset_length h1 h2
  rw [List.length_map] at this
  exact this

theorem mergeItem_sim {res : hashtable} {al : List (List Nat × stats)} (hinv : TInv res al)
    (it : item) (hhash : it.value ≠ none → it.hash = fnvOf it.key)
    (hcap : al.length < res.items.length) :
    ∃ r', mergeItem res it = some r' ∧ TInv r' (alMergeStep al it) ∧
      r'.items.length = res.items.length := by
  cases hv : it.value with
  | none =>
    have h1 : mergeItem res it = some res := by
      unfold mergeItem
      rw [hv]
    have h2 : alMergeStep al it = al := by
      unfold alMergeStep
      rw [hv]
    rw [h1, h2]
    exact ⟨res, rfl, hinv, rfl⟩
  | some v =>
    have hhash2 : it.hash = fnvOf it.key :=
      hhash (by rw [hv]; exact fun h => Option.noConfusion h)
    have hm : mergeItem res it = (match res.getIdx it.hash it.key with
        | some j => some ⟨mergeSlotItems res.items j v, res.size⟩
        | none => res.add it.hash it.key ⟨v.min, v.max, v.sum, v.count⟩) := by
      unfold mergeItem
      rw [hv]
    cases hl : lookupAL al it.key with
    | some s =>
      have h2 : alMergeStep al it = alSet al it.key (mergeCombine s v) := by
        unfold alMergeStep
        rw [hv, hl]
      obtain ⟨j, hgidx, hj, hkey, hval⟩ := TInv_getIdx_some hinv hl (by omega)
      have h1 : mergeItem res it = some ⟨mergeSlotItems res.items j v, res.size⟩ := by
        rw [hm, hhash2, hgidx]
      rw [h1, h2]
      refine ⟨_, rfl, ?_, by unfold mergeSlotItems; rw [List.length_set]⟩
      have heq : mergeSlotItems res.items j v =
          res.items.set j ⟨(slotAt res.items j).hash, (slotAt res.items j).key,
            some (mergeCombine s v)⟩ := by
        show res.items.set j ⟨(slotAt res.items j).hash, (slotAt res.items j).key,
            Option.map (fun s => mergeCombine s v) (slotAt res.items j).value⟩ = _
        rw [hval]
        rfl
      rw [heq]
      exact TInv_overwrite hinv hj hkey hval res.size
    | none =>
      have h2 : alMergeStep al it = al ++ [(it.key, ⟨v.min, v.max, v.sum, v.count⟩)] := by
        unfold alMergeStep
        rw [hv, hl]
      have hcount : countOccupied res.items < res.items.length := by
        rw [hinv.sizeOk]; exact hcap
      obtain ⟨r', hadd, hTI⟩ :=
        TInv_insert hinv ⟨v.min, v.max, v.sum, v.count⟩ hl hcount
      have h1 : mergeItem res it = res.add (fnvOf it.key) it.key
          ⟨v.min, v.max, v.sum, v.count⟩ := by
        rw [hm, hhash2, TInv_getIdx_none hinv hl (by omega)]
      rw [h1, h2]
      exact ⟨r', hadd, hTI, add_items_length hadd⟩

theorem alMergeStep_keys_sub {al : List (List Nat × stats)} {S : List (List Nat)}
    (hal : ∀ p ∈ al, p.1 ∈ S) {it : item} (hk : it.value ≠ none → it.key ∈ S) :
    ∀ p ∈ alMergeStep al it, p.1 ∈ S := by
  intro p hp
  unfold alMergeStep at hp
  cases hv : it.value with
  | none =>
    rw [hv] at hp
    exact hal p hp
  | some v =>
    rw [hv] at hp
    have hkS : it.key ∈ S := hk (by rw [hv]; exact fun h => Option.noConfusion h)
    cases hl : lookupAL al it.key with
    | none =>
      rw [hl] at hp
      rcases List.mem_append.mp hp with hmem | hmem
      · exact hal p hmem
      · rw [List.mem_singleton.mp hmem]
        exact hkS
    | some s =>
      rw [hl] at hp
      have hx : p.1 ∈ (alSet al it.key (mergeCombine s v)).map Prod.fst :=
        List.mem_map.mpr ⟨p, hp, rfl⟩
      rw [alSet_keys] at hx
      obtain ⟨q, hq, hq2⟩ := List.mem_map.mp hx
      rw [← hq2]
      exact hal q hq

theorem mergeFold_sim {S : List (List Nat)} (hS : S.Nodup) :
    ∀ (its : List item) {res : hashtable} {al : List (List Nat × stats)},
      TInv res al → (∀ p ∈ al, p.1 ∈ S) →
      (∀ it ∈ its, it.value ≠ none → it.hash = fnvOf it.key ∧ it.key ∈ S) →
      S.length < res.items.length →
      ∃ r', its.foldl (fun acc it => acc.bind (fun r => mergeItem r it)) (some res) =
          some r' ∧
        TInv r' (alMergeItems al its) ∧ (∀ p ∈ alMergeItems al its, p.1 ∈ S) ∧
        r'.items.length = res.items.length := by
  intro its
  induction its with
  | nil =>
    intro res al hinv hal _ _
    exact ⟨res, rfl, hinv, hal, rfl⟩
  | cons it rest ih =>
    intro res al hinv hal hits hcap
    have hallen := TInv_al_len hinv hal
    obtain ⟨r₁, hmi, hinv₁, hlen₁⟩ := mergeItem_sim hinv it
      (fun hocc => (hits it (List.mem_cons_self _ _) hocc).1) (by omega)
    have hconsEq : (it :: rest).foldl (fun acc it => acc.bind (fun r => mergeItem r it))
        (some res) = rest.foldl (fun acc it => acc.bind (fun r => mergeItem r it))
          (mergeItem res it) := rfl
    have hfoldEq : alMergeItems al (it :: rest) =
        alMergeItems (alMergeStep al it) rest := rfl
    rw [hconsEq, hmi, hfoldEq]
    obtain ⟨r', hrest, hinv', hsub', hlen'⟩ := ih hinv₁
      (alMergeStep_keys_sub hal (fun hocc => (hits it (List.mem_cons_self _ _) hocc).2))
      (fun x hx => hits x (List.mem_cons_of_mem _ hx)) (by omega)
    exact ⟨r', hrest, hinv', hsub', by omega⟩

theorem TInv_items_sound {tb : hashtable} {altb : List (List Nat × stats)}
    {S : List (List Nat)} (hinv : TInv tb altb) (hsub : ∀ p ∈ altb, p.1 ∈ S) :
    ∀ it ∈ tb.items, it.value ≠ none → it.hash = fnvOf it.key ∧ it.key ∈ S := by
  intro it hit hocc
  obtain ⟨j, hj, hje⟩ := List.mem_iff_getElem.mp hit
  have hslot : slotAt tb.items j = it := by rw [slotAt_getElem hj, hje]
  constructor
  · have := hinv.hashOk j hj (by rw [hslot]; exact hocc)
    rwa [hslot] at this
  · obtain ⟨s, hs⟩ := Option.ne_none_iff_exists'.mp hocc
    have hm := hinv.alMatch j hj s (by rw [hslot]; exact hs)
    rw [hslot] at hm
    have := lookupAL_mem hm
    exact hsub _ this

theorem mergeTables_sim {S : List (List Nat)} (hS : S.Nodup) :
    ∀ (tables : List hashtable) {res : hashtable} {al : List (List Nat × stats)},
      TInv res al → (∀ p ∈ al, p.1 ∈ S) →
      (∀ tb ∈ tables, ∃ altb, TInv tb altb ∧ (∀ p ∈ altb, p.1 ∈ S)) →
      S.length < res.items.length →
      ∃ r', tables.foldl (fun acc tb => tb.items.foldl
          (fun acc it => acc.bind (fun r => mergeItem r it)) acc) (some res) = some r' ∧
        TInv r' (tables.foldl (fun al tb => alMergeItems al tb.items) al) ∧
        r'.items.length = res.items.length := by
  intro tables
  induction tables with
  | nil =>
    intro res al hinv hal _ _
    exact ⟨res, rfl, hinv, rfl⟩
  | cons tb rest ih =>
    intro res al hinv hal htabs hcap
    obtain ⟨altb, hinvtb, hsubtb⟩ := htabs tb (List.mem_cons_self _ _)
    obtain ⟨r₁, hfold, hinv₁, hsub₁, hlen₁⟩ := mergeFold_sim hS tb.items hinv hal
      (TInv_items_sound hinvtb hsubtb) hcap
    have hconsEq : (tb :: rest).foldl (fun acc tb => tb.items.foldl
        (fun acc it => acc.bind (fun r => mergeItem r it)) acc) (some res) =
      rest.foldl (fun acc tb => tb.items.foldl
        (fun acc it => acc.bind (fun r => mergeItem r it)) acc)
        (tb.items.foldl (fun acc it => acc.bind (fun r => mergeItem r it)) (some res)) := rfl
    rw [hconsEq, hfold]
    have hfoldEq : (tb :: rest).foldl (fun al tb => alMergeItems al tb.items) al =
        rest.foldl (fun al tb => alMergeItems al tb.items) (alMergeItems al tb.items) := rfl
    rw [hfoldEq]
    obtain ⟨r', hrest, hinv', hlen'⟩ := ih hinv₁ hsub₁
      (fun x hx => htabs x (List.mem_cons_of_mem _ hx)) (by omega)
    exact ⟨r', hrest, hinv', by omega⟩

/-! ## Denotation of the folds -/

theorem lookupAL_alFold (recs : List (List Nat × Int)) :
    ∀ (al : List (List Nat × stats)) (k : List Nat),
      lookupAL (alFold al recs) k = combineUpd (lookupAL al k) (tempsOf recs k) := by
  induction recs with
  | nil =>
    intro al k
    show lookupAL al k = combineUpd (lookupAL al k) (tempsOf [] k)
    cases h : lookupAL al k <;> rfl
  | cons r rest ih =>
    intro al k
    obtain ⟨kr, tr⟩ := r
    have h1 : alFold al ((kr, tr) :: rest) = alFold (alStep al (kr, tr)) rest := rfl
    rw [h1, ih]
    by_cases hk : kr = k
    · subst hk
      have htemps : tempsOf ((kr, tr) :: rest) kr = tr :: tempsOf rest kr := by
        simp [tempsOf, List.filter_cons]
      rw [htemps]
      cases hl : lookupAL al kr with
      | none =>
        have hstep : alStep al (kr, tr) = al ++ [(kr, statsInit tr)] := by
          unfold alStep
          rw [show lookupAL al (kr, tr).1 = none from hl]
        rw [hstep, lookupAL_append_self _ hl]
        rfl
      | some s =>
        have hstep : alStep al (kr, tr) = alSet al kr (updStats s tr) := by
          unfold alStep
          rw [show lookupAL al (kr, tr).1 = some s from hl]
        rw [hstep, lookupAL_alSet_self, hl]
        rfl
    · have htemps : tempsOf ((kr, tr) :: rest) k = tempsOf rest k := by
        simp [tempsOf, List.filter_cons, hk]
      rw [htemps]
      cases hl : lookupAL al kr with
      | none =>
        have hstep : alStep al (kr, tr) = al ++ [(kr, statsInit tr)] := by
          unfold alStep
          rw [show lookupAL al (kr, tr).1 = none from hl]
        rw [hstep, lookupAL_append_other _ hk]
      | some s =>
        have hstep : alStep al (kr, tr) = alSet al kr (updStats s tr) := by
          unfold alStep
          rw [show lookupAL al (kr, tr).1 = some s from hl]
        rw [hstep, lookupAL_alSet_other _ (fun h => hk h.symm)]

theorem mergeCombine_upd (a b : stats) (t : Int) :
    mergeCombine a (updStats b t) = updStats (mergeCombine a b) t := by
  simp only [mergeCombine, updStats, goMin, goMax, add32, add64, wrap32, pow64]
  rw [stats.mk.injEq]
  refine ⟨?_, ?_, ?_, ?_⟩
  · split_ifs <;> omega
  · split_ifs <;> omega
  · omega
  · omega

theorem combineMerge_statsOpt : ∀ (l₁ l₂ : List Int),
    combineMerge (statsOpt l₁) (statsOpt l₂) = statsOpt (l₁ ++ l₂) := by
  have key : ∀ (ts : List Int) (a : stats) (t : Int),
      mergeCombine a (ts.foldl updStats (statsInit t)) =
        ts.foldl updStats (updStats a t) := by
    intro ts
    induction ts using List.reverseRecOn with
    | nil => intro a t; rfl
    | append_singleton ts x ih =>
      intro a t
      rw [List.foldl_append, List.foldl_append]
      show mergeCombine a (updStats _ x) = updStats _ x
      rw [mergeCombine_upd, ih]
  intro l₁ l₂
  cases l₁ with
  | nil =>
    cases l₂ with
    | nil => rfl
    | cons t₂ ts₂ => rfl
  | cons t₁ ts₁ =>
    cases l₂ with
    | nil => rw [List.append_nil]; rfl
    | cons t₂ ts₂ =>
      show some (mergeCombine _ _) = _
      rw [key ts₂ _ t₂]
      show _ = some ((ts₁ ++ t₂ :: ts₂).foldl updStats (statsInit t₁))
      rw [List.foldl_append]
      rfl

theorem findValue_cons (it : item) (rest : List item) (k : List Nat) :
    findValue (it :: rest) k =
      if it.key = k ∧ it.value ≠ none then it.value else findValue rest k := by
  unfold findValue
  rw [List.find?_cons]
  by_cases h1 : it.key = k <;> by_cases h2 : it.value = none <;>
    simp [h1, h2]

theorem findValue_eq_none {its : List item} {k : List Nat}
    (h : ∀ it ∈ its, it.value ≠ none → it.key ≠ k) : findValue its k = none := by
  unfold findValue
  have hf : List.find? (fun it => decide (it.key = k) && decide (it.value ≠ none)) its
      = none := by
    rw [List.find?_eq_none]
    intro x hx
    simp only [Bool.and_eq_true, decide_eq_true_eq]
    intro ⟨hk, hv⟩
    exact h x hx hv hk
  rw [hf]

theorem lookupAL_alMergeItems : ∀ (its : List item),
    its.Pairwise (fun a b => a.value ≠ none → b.value ≠ none → a.key ≠ b.key) →
    ∀ (al : List (List Nat × stats)) (k : List Nat),
      lookupAL (alMergeItems al its) k = combineMerge (lookupAL al k) (findValue its k) := by
  intro its
  induction its with
  | nil =>
    intro _ al k
    show lookupAL al k = combineMerge (lookupAL al k) (findValue [] k)
    cases h : lookupAL al k <;> rfl
  | cons it rest ih =>
    intro hpw al k
    obtain ⟨hhead, htail⟩ := List.pairwise_cons.mp hpw
    have h1 : alMergeItems al (it :: rest) = alMergeItems (alMergeStep al it) rest := rfl
    rw [h1, ih htail, findValue_cons]
    cases hv : it.value with
    | none =>
      have h2 : alMergeStep al it = al := by
        unfold alMergeStep
        rw [hv]
      rw [h2, if_neg (fun hx => hx.2 rfl)]
    | some v =>
      by_cases hk : it.key = k
      · rw [if_pos ⟨hk, fun h => Option.noConfusion h⟩]
        have hrest : findValue rest k = none := by
          refine findValue_eq_none ?_
          intro x hx hxocc hxk
          exact hhead x hx (by rw [hv]; exact fun h => Option.noConfusion h) hxocc
            (by rw [hk, hxk])
        rw [hrest]
        subst hk
        cases hl : lookupAL al it.key with
        | none =>
          have h2 : alMergeStep al it = al ++ [(it.key, ⟨v.min, v.max, v.sum, v.count⟩)] := by
            unfold alMergeStep
            rw [hv, hl]
          rw [h2, lookupAL_append_self _ hl]
          rfl
        | some s =>
          have h2 : alMergeStep al it = alSet al it.key (mergeCombine s v) := by
            unfold alMergeStep
            rw [hv, hl]
          rw [h2, lookupAL_alSet_self, hl]
          rfl
      · rw [if_neg (fun hx => hk hx.1)]
        cases hl : lookupAL al it.key with
        | none =>
          have h2 : alMergeStep al it = al ++ [(it.key, ⟨v.min, v.max, v.sum, v.count⟩)] := by
            unfold alMergeStep
            rw [hv, hl]
          rw [h2, lookupAL_append_other _ hk]
        | some s =>
          have h2 : alMergeStep al it = alSet al it.key (mergeCombine s v) := by
            unfold alMergeStep
            rw [hv, hl]
          rw [h2, lookupAL_alSet_other _ (fun h => hk h.symm)]

theorem TInv_items_pairwise {t : hashtable} {al : List (List Nat × stats)} (hinv : TInv t al) :
    t.items.Pairwise (fun a b => a.value ≠ none → b.value ≠ none → a.key ≠ b.key) := by
  rw [List.pairwise_iff_getElem]
  intro i j hi hj hij ha hb hk
  have hsa : slotAt t.items i = t.items[i] := slotAt_getElem hi
  have hsb : slotAt t.items j = t.items[j] := slotAt_getElem hj
  have : i = j := TInv_key_unique hinv hi hj (by rw [hsa]; exact ha) (by rw [hsb]; exact hb)
    (by rw [hsa, hsb]; exact hk)
  omega

theorem findValue_eq_lookupAL {tb : hashtable} {altb : List (List Nat × stats)}
    (hinv : TInv tb altb) (k : List Nat) :
    findValue tb.items k = lookupAL altb k := by
  cases hl : lookupAL altb k with
  | none =>
    refine findValue_eq_none ?_
    intro it hit hocc hk
    obtain ⟨j, hj, hje⟩ := List.mem_iff_getElem.mp hit
    have hslot : slotAt tb.items j = it := by rw [slotAt_getElem hj, hje]
    exact TInv_no_key hinv hl j hj (by rw [hslot]; exact hocc) (by rw [hslot]; exact hk)
  | some s =>
    obtain ⟨j₀, hj₀, hkey₀, hval₀⟩ := hinv.complete k s hl
    have hall : ∀ it ∈ tb.items, it.key = k → it.value ≠ none → it.value = some s := by
      intro it hit hk hocc
      obtain ⟨j, hj, hje⟩ := List.mem_iff_getElem.mp hit
      have hslot : slotAt tb.items j = it := by rw [slotAt_getElem hj, hje]
      have hjj : j = j₀ := by
        refine TInv_key_unique hinv hj hj₀ (by rw [hslot]; exact hocc)
          (by rw [hval₀]; exact fun h => Option.noConfusion h) ?_
        rw [hslot, hkey₀, hk]
      rw [← hslot, hjj, hval₀]
    unfold findValue
    cases hf : List.find? (fun it => decide (it.key = k) && decide (it.value ≠ none))
        tb.items with
    | none =>
      exfalso
      have hmem := slotAt_mem hj₀
      have := List.find?_eq_none.mp hf (slotAt tb.items j₀) hmem
      simp only [Bool.and_eq_true, decide_eq_true_eq, not_and] at this
      exact this hkey₀ (by rw [hval₀]; exact fun h => Option.noConfusion h)
    | some it =>
      have hp := List.find?_some hf
      have hmem := List.mem_of_find?_eq_some hf
      simp only [Bool.and_eq_true, decide_eq_true_eq] at hp
      exact hall it hmem hp.1 hp.2

theorem fold_findValue_eq (k : List Nat) :
    ∀ {ts : List hashtable} {gs : List (List (List Nat × List Nat))},
      List.Forall₂ (fun t g => TInv t (alFold [] (recordsOf g))) ts gs →
      ∀ acc : List Int,
        ts.foldl (fun o tb => combineMerge o (findValue tb.items k)) (statsOpt acc) =
          statsOpt (acc ++ (gs.map (fun g => tempsOf (recordsOf g) k)).flatten) := by
  intro ts gs h
  induction h with
  | nil =>
    intro acc
    simp
  | cons hrel hrest ih =>
    rename_i tb g ts' gs'
    intro acc
    rw [List.foldl_cons]
    have h1 : findValue tb.items k = statsOpt (tempsOf (recordsOf g) k) := by
      rw [findValue_eq_lookupAL hrel, lookupAL_alFold]
      show combineUpd (lookupAL [] k) _ = _
      rfl
    rw [h1, combineMerge_statsOpt, ih]
    rw [List.map_cons, List.flatten_cons, List.append_assoc]

/-! ## The chunked pipeline -/

theorem NewHashTable_items_length (n : Nat) : (NewHashTable n).items.length = n := by
  show (List.replicate n default).length = n
  rw [List.length_replicate]

theorem linesBytes_append (a b : List (List Nat × List Nat)) :
    linesBytes (a ++ b) = linesBytes a ++ linesBytes b := by
  unfold linesBytes
  rw [List.map_append, List.flatten_append]

theorem recordsOf_keys_sub {g : List (List Nat × List Nat)} {S : List (List Nat)}
    (hsub : ∀ p ∈ g, p.1 ∈ S) : ∀ r ∈ recordsOf g, r.1 ∈ S := by
  intro r hr
  obtain ⟨p, hp, hpr⟩ := List.mem_map.mp hr
  rw [← hpr]
  exact hsub p hp

theorem mapM_chunks {S : List (List Nat)} (hS : S.Nodup) (hcap : S.length < 1 <<< 16) :
    ∀ (gs : List (List (List Nat × List Nat))) (pre post : List Nat),
      (∀ p ∈ gs.flatten, wfLine p) → (∀ p ∈ gs.flatten, p.1 ∈ S) →
      ∃ ts : List hashtable,
        (chunkOffsets gs pre.length).mapM
          (fun c => processData (pre ++ (linesBytes gs.flatten ++ post)) c.1 c.2) = some ts ∧
        List.Forall₂ (fun t g => TInv t (alFold [] (recordsOf g)) ∧
          t.items.length = 1 <<< 16 ∧
          (∀ p ∈ alFold [] (recordsOf g), p.1 ∈ S)) ts gs := by
  intro gs
  induction gs with
  | nil =>
    intro pre post _ _
    exact ⟨[], rfl, List.Forall₂.nil⟩
  | cons g rest ih =>
    intro pre post hwf hsub
    have hflat : (g :: rest).flatten = g ++ rest.flatten := rfl
    have hdata2 : pre ++ (linesBytes (g :: rest).flatten ++ post)
        = pre ++ (linesBytes g ++ (linesBytes rest.flatten ++ post)) := by
      rw [hflat, linesBytes_append, List.append_assoc]
    have hdata : pre ++ (linesBytes (g :: rest).flatten ++ post)
        = (pre ++ linesBytes g) ++ (linesBytes rest.flatten ++ post) := by
      rw [hdata2, List.append_assoc]
    have hwfg : ∀ p ∈ g, wfLine p := by
      intro p hp
      exact hwf p (by rw [hflat]; exact List.mem_append_left _ hp)
    have hsubg : ∀ p ∈ g, p.1 ∈ S := by
      intro p hp
      exact hsub p (by rw [hflat]; exact List.mem_append_left _ hp)
    have hhead : processData (pre ++ (linesBytes (g :: rest).flatten ++ post)) pre.length
        (pre.length + (linesBytes g).length)
        = recFoldM (some (NewHashTable (1 <<< 16))) (recordsOf g) := by
      rw [hdata2]
      exact processData_chunk g pre (linesBytes rest.flatten ++ post) hwfg
    obtain ⟨t, hteq, htinv, htsub, htlen⟩ := recFoldM_sim (recordsOf g)
      (TInv_new (1 <<< 16)) (by intro p hp; exact absurd hp (List.not_mem_nil p))
      (recordsOf_keys_sub hsubg) hS
      (by rw [NewHashTable_items_length]; exact hcap)
    have hheadSome : processData (pre ++ (linesBytes (g :: rest).flatten ++ post)) pre.length
        (pre.length + (linesBytes g).length) = some t := by
      rw [hhead]
      exact hteq
    obtain ⟨ts, hts, hfa⟩ := ih (pre ++ linesBytes g) post
      (by intro p hp; exact hwf p (by rw [hflat]; exact List.mem_append_right _ hp))
      (by intro p hp; exact hsub p (by rw [hflat]; exact List.mem_append_right _ hp))
    rw [hdata, ← List.length_append pre (linesBytes g)] at hheadSome
    have hoff : chunkOffsets (g :: rest) pre.length
        = (pre.length, pre.length + (linesBytes g).length)
          :: chunkOffsets rest (pre.length + (linesBytes g).length) := rfl
    refine ⟨t :: ts, ?_, List.Forall₂.cons
      ⟨htinv, by rw [htlen, NewHashTable_items_length], htsub⟩ hfa⟩
    rw [hoff, ← List.length_append pre (linesBytes g), hdata]
    rw [List.mapM_cons, hheadSome, hts]
    rfl

/-! ## The lexicographic key order and the sorted output -/

theorem bytesLt_nil_right : ∀ a : List Nat, bytesLt a [] = false := by
  intro a
  cases a <;> rfl

theorem bytesLt_asymm : ∀ a b : List Nat, bytesLt a b = true → bytesLt b a = false := by
  intro a
  induction a with
  | nil =>
    intro b hb
    cases b with
    | nil => rfl
    | cons y ys => exact bytesLt_nil_right _
  | cons x xs ih =>
    intro b hb
    cases b with
    | nil => exact absurd hb (by rw [bytesLt_nil_right]; exact fun h => Bool.noConfusion h)
    | cons y ys =>
      have hb' : (if x < y then true else if y < x then false else bytesLt xs ys) = true := hb
      show (if y < x then true else if x < y then false else bytesLt ys xs) = false
      by_cases h1 : x < y
      · rw [if_neg (by omega), if_pos h1]
      · rw [if_neg h1] at hb'
        by_cases h2 : y < x
        · rw [if_pos h2] at hb'
          exact absurd hb' (fun h => Bool.noConfusion h)
        · rw [if_neg h2] at hb'
          rw [if_neg h2, if_neg h1]
          exact ih ys hb'

theorem bytesLt_trans : ∀ a b c : List Nat, bytesLt a b = true → bytesLt b c = true →
    bytesLt a c = true := by
  intro a
  induction a with
  | nil =>
    intro b c hab hbc
    cases c with
    | nil =>
      rw [bytesLt_nil_right] at hbc
      exact absurd hbc (fun h => Bool.noConfusion h)
    | cons z zs => rfl
  | cons x xs ih =>
    intro b c hab hbc
    cases b with
    | nil =>
      rw [bytesLt_nil_right] at hab
      exact absurd hab (fun h => Bool.noConfusion h)
    | cons y ys =>
      cases c with
      | nil =>
        rw [bytesLt_nil_right] at hbc
        exact absurd hbc (fun h => Bool.noConfusion h)
      | cons z zs =>
        have hab' : (if x < y then true else if y < x then false else bytesLt xs ys) = true := hab
        have hbc' : (if y < z then true else if z < y then false else bytesLt ys zs) = true := hbc
        show (if x < z then true else if z < x then false else bytesLt xs zs) = true
        by_cases h1 : x < y
        · by_cases h2 : y < z
          · rw [if_pos (by omega)]
          · rw [if_neg h2] at hbc'
            by_cases h3 : z < y
            · rw [if_pos h3] at hbc'
              exact absurd hbc' (fun h => Bool.noConfusion h)
            · rw [if_pos (by omega)]
        · rw [if_neg h1] at hab'
          by_cases h4 : y < x
          · rw [if_pos h4] at hab'
            exact absurd hab' (fun h => Bool.noConfusion h)
          · rw [if_neg h4] at hab'
            by_cases h2 : y < z
            · rw [if_pos (by omega)]
            · rw [if_neg h2] at hbc'
              by_cases h3 : z < y
              · rw [if_pos h3] at hbc'
                exact absurd hbc' (fun h => Bool.noConfusion h)
              · rw [if_neg h3] at hbc'
                rw [if_neg (by omega), if_neg (by omega)]
                exact ih ys zs hab' hbc'

theorem bytesLt_conn : ∀ a b : List Nat, bytesLt a b = false → bytesLt b a = false →
    a = b := by
  intro a
  induction a with
  | nil =>
    intro b hab _
    cases b with
    | nil => rfl
    | cons y ys => exact absurd hab (by rw [show bytesLt [] (y :: ys) = true from rfl]; exact fun h => Bool.noConfusion h)
  | cons x xs ih =>
    intro b hab hba
    cases b with
    | nil => exact absurd hba (by rw [show bytesLt [] (x :: xs) = true from rfl]; exact fun h => Bool.noConfusion h)
    | cons y ys =>
      have hab' : (if x < y then true else if y < x then false else bytesLt xs ys) = false := hab
      have hba' : (if y < x then true else if x < y then false else bytesLt ys xs) = false := hba
      by_cases h1 : x < y
      · rw [if_pos h1] at hab'
        exact absurd hab' (fun h => Bool.noConfusion h)
      · by_cases h2 : y < x
        · rw [if_pos h2] at hba'
          exact absurd hba' (fun h => Bool.noConfusion h)
        · rw [if_neg h1, if_neg h2] at hab'
          rw [if_neg h2, if_neg h1] at hba'
          have hxy : x = y := by omega
          rw [hxy, ih ys hab' hba']

/-! ## The populated slots determine the sorted output -/

theorem populated_pairwise_ne {t : hashtable} {al : List (List Nat × stats)}
    (hinv : TInv t al) :
    (populatedItems t).Pairwise (fun a b => a.key ≠ b.key) := by
  have h1 := TInv_items_pairwise hinv
  have hsub : (populatedItems t).Sublist t.items := by
    unfold populatedItems
    exact List.filter_sublist t.items
  have h3 := h1.sublist hsub
  refine h3.imp_of_mem ?_
  intro a b ha hb hr
  have ha' : a.value ≠ none := by
    have := (List.mem_filter.mp ha).2
    simpa using this
  have hb' : b.value ≠ none := by
    have := (List.mem_filter.mp hb).2
    simpa using this
  exact hr ha' hb'

theorem mem_populated_iff {t : hashtable} {al : List (List Nat × stats)}
    (hinv : TInv t al) (x : item) : x ∈ populatedItems t ↔ x ∈ alItems al := by
  constructor
  · intro hx
    obtain ⟨hmem, hp⟩ := List.mem_filter.mp hx
    have hocc : x.value ≠ none := by simpa using hp
    obtain ⟨s, hs⟩ := Option.ne_none_iff_exists'.mp hocc
    obtain ⟨j, hj, hje⟩ := List.mem_iff_getElem.mp hmem
    have hslot : slotAt t.items j = x := by rw [slotAt_getElem hj, hje]
    have hlook : lookupAL al x.key = some s := by
      have := hinv.alMatch j hj s (by rw [hslot]; exact hs)
      rwa [hslot] at this
    have hhash : x.hash = fnvOf x.key := by
      have := hinv.hashOk j hj (by rw [hslot]; exact hocc)
      rwa [hslot] at this
    refine List.mem_map.mpr ⟨(x.key, s), lookupAL_mem hlook, ?_⟩
    show (⟨fnvOf x.key, x.key, some s⟩ : item) = x
    obtain ⟨xh, xk, xv⟩ := x
    simp only [] at hhash hs ⊢
    rw [← hhash, ← hs]
  · intro hx
    obtain ⟨p, hp, hpx⟩ := List.mem_map.mp hx
    have hlook : lookupAL al p.1 = some p.2 := mem_lookupAL hinv.alNodup (by exact hp)
    obtain ⟨j, hj, hkey, hval⟩ := hinv.complete p.1 p.2 hlook
    have hocc : (slotAt t.items j).value ≠ none := by
      rw [hval]
      exact fun h => Option.noConfusion h
    have hhash := hinv.hashOk j hj hocc
    have hxeq : slotAt t.items j = x := by
      rw [← hpx]
      show (⟨(slotAt t.items j).hash, (slotAt t.items j).key, (slotAt t.items j).value⟩ : item)
        = ⟨fnvOf p.1, p.1, some p.2⟩
      rw [hhash, hkey, hval]
    refine List.mem_filter.mpr ⟨by rw [← hxeq]; exact slotAt_mem hj, ?_⟩
    rw [← hxeq]
    simp [hval]

theorem alItems_nodup {al : List (List Nat × stats)} (h : (al.map Prod.fst).Nodup) :
    (alItems al).Nodup := by
  have hal : al.Nodup := h.of_map
  refine hal.map ?_
  intro p q hpq
  obtain ⟨p1, p2⟩ := p
  obtain ⟨q1, q2⟩ := q
  simp only [item.mk.injEq, Option.some.injEq] at hpq
  obtain ⟨-, h1, h2⟩ := hpq
  rw [h1, h2]

theorem mem_alItems_iff {al : List (List Nat × stats)} (h : (al.map Prod.fst).Nodup)
    (x : item) :
    x ∈ alItems al ↔ ∃ k s, lookupAL al k = some s ∧ x = ⟨fnvOf k, k, some s⟩ := by
  constructor
  · intro hx
    obtain ⟨p, hp, hpx⟩ := List.mem_map.mp hx
    exact ⟨p.1, p.2, mem_lookupAL h (by exact hp), hpx.symm⟩
  · intro ⟨k, s, hl, hx⟩
    exact List.mem_map.mpr ⟨(k, s), lookupAL_mem hl, hx.symm⟩

theorem populated_perm {t₁ t₂ : hashtable} {al₁ al₂ : List (List Nat × stats)}
    (h₁ : TInv t₁ al₁) (h₂ : TInv t₂ al₂)
    (heq : ∀ k, lookupAL al₁ k = lookupAL al₂ k) :
    (populatedItems t₁).Perm (populatedItems t₂) := by
  refine List.perm_of_nodup_nodup_toFinset_eq ?_ ?_ ?_
  · exact (populated_pairwise_ne h₁).imp (fun hk he => hk (by rw [he]))
  · exact (populated_pairwise_ne h₂).imp (fun hk he => hk (by rw [he]))
  · ext x
    simp only [List.mem_toFinset]
    rw [mem_populated_iff h₁, mem_populated_iff h₂, mem_alItems_iff h₁.alNodup,
      mem_alItems_iff h₂.alNodup]
    constructor
    · intro ⟨k, s, hl, hx⟩
      exact ⟨k, s, by rw [← heq k]; exact hl, hx⟩
    · intro ⟨k, s, hl, hx⟩
      exact ⟨k, s, by rw [heq k]; exact hl, hx⟩

theorem sortKey_trans : ∀ a b c : item,
    (! bytesLt b.key a.key) = true → (! bytesLt c.key b.key) = true →
    (! bytesLt c.key a.key) = true := by
  intro a b c hab hbc
  rw [Bool.not_eq_true'] at hab hbc ⊢
  cases hca : bytesLt c.key a.key with
  | false => rfl
  | true =>
    exfalso
    cases hbc2 : bytesLt b.key c.key with
    | true =>
      have := bytesLt_trans _ _ _ hbc2 hca
      rw [this] at hab
      exact Bool.noConfusion hab
    | false =>
      have hbceq : b.key = c.key := bytesLt_conn _ _ hbc2 hbc
      rw [← hbceq] at hca
      rw [hca] at hab
      exact Bool.noConfusion hab

theorem sortKey_total : ∀ a b : item,
    ((! bytesLt b.key a.key) || (! bytesLt a.key b.key)) = true := by
  intro a b
  cases hab : bytesLt a.key b.key with
  | false => simp [hab]
  | true =>
    have := bytesLt_asymm _ _ hab
    simp [this]

theorem sortedItems_sorted (t : hashtable) :
    List.Sorted (fun x y : item => (! bytesLt y.key x.key) = true) (sortedItems t) :=
  List.sorted_mergeSort sortKey_trans sortKey_total (populatedItems t)

theorem sortedItems_perm (t : hashtable) :
    (sortedItems t).Perm (populatedItems t) :=
  List.mergeSort_perm (populatedItems t) _

theorem sortedItems_eq {t₁ t₂ : hashtable} {al₁ al₂ : List (List Nat × stats)}
    (h₁ : TInv t₁ al₁) (h₂ : TInv t₂ al₂)
    (heq : ∀ k, lookupAL al₁ k = lookupAL al₂ k) :
    sortedItems t₁ = sortedItems t₂ := by
  have hperm : (sortedItems t₁).Perm (sortedItems t₂) :=
    ((sortedItems_perm t₁).trans (populated_perm h₁ h₂ heq)).trans (sortedItems_perm t₂).symm
  have hstrict : ∀ (t : hashtable) (al : List (List Nat × stats)), TInv t al →
      List.Sorted (fun x y : item => bytesLt x.key y.key = true) (sortedItems t) := by
    intro t al hinv
    have hle := sortedItems_sorted t
    have hne : (sortedItems t).Pairwise (fun a b => a.key ≠ b.key) :=
      (sortedItems_perm t).symm.pairwise (populated_pairwise_ne hinv) (fun h hba => (h hba.symm).elim)
    refine (hle.and hne).imp ?_
    intro a b ⟨hleab, hneab⟩
    rw [Bool.not_eq_true'] at hleab
    cases hab : bytesLt a.key b.key with
    | true => rfl
    | false => exact absurd (bytesLt_conn _ _ hab hleab) hneab
  letI : IsAntisymm item (fun x y : item => bytesLt x.key y.key = true) :=
    ⟨fun a b hab hba => by
      have := bytesLt_asymm _ _ hab
      rw [this] at hba
      exact Bool.noConfusion hba⟩
  exact List.eq_of_perm_of_sorted hperm (hstrict t₁ al₁ h₁) (hstrict t₂ al₂ h₂)

/-! ## Assembling the two pipelines -/

theorem forall2_mem_left {α β : Type} {R : α → β → Prop} :
    ∀ {l₁ : List α} {l₂ : List β}, List.Forall₂ R l₁ l₂ → ∀ a ∈ l₁, ∃ b ∈ l₂, R a b := by
  intro l₁ l₂ h
  induction h with
  | nil =>
    intro a ha
    exact absurd ha (List.not_mem_nil a)
  | cons hrel hrest ih =>
    rename_i x y l₁' l₂'
    intro a ha
    rcases List.mem_cons.mp ha with he | hm
    · exact ⟨y, List.mem_cons_self _ _, he ▸ hrel⟩
    · obtain ⟨b, hb, hr⟩ := ih a hm
      exact ⟨b, List.mem_cons_of_mem _ hb, hr⟩

theorem lookupAL_mergeAL : ∀ (ts : List hashtable) (al₀ : List (List Nat × stats))
    (k : List Nat), (∀ tb ∈ ts, ∃ altb, TInv tb altb) →
    lookupAL (ts.foldl (fun al tb => alMergeItems al tb.items) al₀) k =
      ts.foldl (fun o tb => combineMerge o (findValue tb.items k)) (lookupAL al₀ k) := by
  intro ts
  induction ts with
  | nil =>
    intro al₀ k _
    rfl
  | cons tb rest ih =>
    intro al₀ k htb
    obtain ⟨altb, hinvtb⟩ := htb tb (List.mem_cons_self _ _)
    rw [List.foldl_cons, List.foldl_cons,
      ih _ k (fun x hx => htb x (List.mem_cons_of_mem _ hx)),
      lookupAL_alMergeItems tb.items (TInv_items_pairwise hinvtb) al₀ k]

theorem combineMerge_none_left (o : Option stats) : combineMerge none o = o := by
  cases o <;> rfl

theorem recordsOf_append (a b : List (List Nat × List Nat)) :
    recordsOf (a ++ b) = recordsOf a ++ recordsOf b := by
  unfold recordsOf
  rw [List.map_append]

theorem tempsOf_append (r₁ r₂ : List (List Nat × Int)) (k : List Nat) :
    tempsOf (r₁ ++ r₂) k = tempsOf r₁ k ++ tempsOf r₂ k := by
  unfold tempsOf
  rw [List.filter_append, List.map_append]

theorem tempsOf_flatten (k : List Nat) : ∀ lss : List (List (List Nat × List Nat)),
    tempsOf (recordsOf lss.flatten) k
      = (lss.map (fun g => tempsOf (recordsOf g) k)).flatten := by
  intro lss
  induction lss with
  | nil => rfl
  | cons g rest ih =>
    rw [List.flatten_cons, recordsOf_append, tempsOf_append, List.map_cons,
      List.flatten_cons, ih]

/-- C1: for every well-formed line-aligned re-chunking of the input file
(any grouping `lss` of the record list, covering every worker count and
every chunk placement) and fewer distinct stations than the table
capacity, the parallel pipeline — one `processData` per chunk of the
mapped bytes followed by `mergeHashTables` — produces exactly the sorted
per-station item list (min, max, sum, count) of the single-worker run over
the whole file, so the emitted line is byte-identical. -/
theorem spec_C1 (lss : List (List (List Nat × List Nat)))
    (hwf : ∀ p ∈ lss.flatten, wfLine p)
    (hcap : stationCount lss < 65536) :
    ∃ out, parallelRun lss = some out ∧ singleRun lss = some out := by
  have hS : ((lss.flatten.map Prod.fst).dedup).Nodup := List.nodup_dedup _
  have hcap' : ((lss.flatten.map Prod.fst).dedup).length < 1 <<< 16 := by
    have h16 : (1 <<< 16 : Nat) = 65536 := rfl
    rw [h16]
    exact hcap
  have hsub : ∀ p ∈ lss.flatten, p.1 ∈ (lss.flatten.map Prod.fst).dedup := by
    intro p hp
    rw [List.mem_dedup]
    exact List.mem_map.mpr ⟨p, hp, rfl⟩
  obtain ⟨ts, hmapM, hfa⟩ := mapM_chunks hS hcap' lss [] [] hwf hsub
  simp only [List.nil_append, List.append_nil, List.length_nil] at hmapM
  have htabs : ∀ tb ∈ ts, ∃ altb, TInv tb altb ∧
      (∀ p ∈ altb, p.1 ∈ (lss.flatten.map Prod.fst).dedup) := by
    intro tb htb
    obtain ⟨g, _, hrel⟩ := forall2_mem_left hfa tb htb
    exact ⟨alFold [] (recordsOf g), hrel.1, hrel.2.2⟩
  obtain ⟨rP, hrPeq, hrPinv, _⟩ := mergeTables_sim hS ts (TInv_new (1 <<< 16))
    (by intro p hp; exact absurd hp (List.not_mem_nil p)) htabs
    (by rw [NewHashTable_items_length]; exact hcap')
  have hmerge : mergeHashTables ts = some rP := hrPeq
  have hsingle0 : processData (linesBytes lss.flatten) 0 (linesBytes lss.flatten).length
      = recFoldM (some (NewHashTable (1 <<< 16))) (recordsOf lss.flatten) := by
    have := processData_chunk lss.flatten [] [] hwf
    simpa using this
  obtain ⟨tW, htWeq, htWinv, htWsub, _⟩ := recFoldM_sim (recordsOf lss.flatten)
    (TInv_new (1 <<< 16)) (by intro p hp; exact absurd hp (List.not_mem_nil p))
    (recordsOf_keys_sub hsub) hS (by rw [NewHashTable_items_length]; exact hcap')
  obtain ⟨rS, hrSeq, hrSinv, _⟩ := mergeTables_sim hS [tW] (TInv_new (1 <<< 16))
    (by intro p hp; exact absurd hp (List.not_mem_nil p))
    (by
      intro tb htb
      rw [List.mem_singleton] at htb
      subst htb
      exact ⟨_, htWinv, htWsub⟩)
    (by rw [NewHashTable_items_length]; exact hcap')
  have hmerge2 : mergeHashTables [tW] = some rS := hrSeq
  have hkey : ∀ k, lookupAL (ts.foldl (fun al tb => alMergeItems al tb.items) []) k
      = lookupAL ([tW].foldl (fun al tb => alMergeItems al tb.items) []) k := by
    intro k
    rw [lookupAL_mergeAL ts [] k (fun tb htb => (htabs tb htb).imp (fun _ h => h.1))]
    have hfa' : List.Forall₂ (fun t g => TInv t (alFold [] (recordsOf g))) ts lss :=
      hfa.imp (fun _ _ h => h.1)
    have hL : lookupAL [] k = statsOpt [] := rfl
    rw [hL, fold_findValue_eq k hfa' []]
    rw [List.foldl_cons, List.foldl_nil,
      lookupAL_alMergeItems tW.items (TInv_items_pairwise htWinv) [] k,
      findValue_eq_lookupAL htWinv k, lookupAL_alFold]
    have hR : combineUpd (lookupAL [] k) (tempsOf (recordsOf lss.flatten) k)
        = statsOpt (tempsOf (recordsOf lss.flatten) k) := rfl
    rw [hR]
    have hCM : combineMerge (lookupAL [] k) (statsOpt (tempsOf (recordsOf lss.flatten) k))
        = statsOpt (tempsOf (recordsOf lss.flatten) k) :=
      combineMerge_none_left _
    rw [hCM, tempsOf_flatten k lss, List.nil_append]
  have hout : sortedItems rP = sortedItems rS := sortedItems_eq hrPinv hrSinv hkey
  refine ⟨sortedItems rP, ?_, ?_⟩
  · unfold parallelRun
    rw [hmapM]
    show (mergeHashTables ts).map sortedItems = some (sortedItems rP)
    rw [hmerge]
    rfl
  · unfold singleRun
    have hpd : processData (linesBytes lss.flatten) 0 (linesBytes lss.flatten).length
        = some tW := by
      rw [hsingle0]
      exact htWeq
    rw [hpd]
    show (mergeHashTables [tW]).map sortedItems = some (sortedItems rP)
    rw [hmerge2, hout]
    rfl

/-- Witness for C1: the two-chunk input "A;1.0\nB;2.5\n" / "A;3.5\n". -/
theorem spec_C1_witness :
    (∀ p ∈ ([[([65], [49, 46, 48]), ([66], [50, 46, 53])],
        [([65], [51, 46, 53])]] : List (List (List Nat × List Nat))).flatten, wfLine p) ∧
    stationCount [[([65], [49, 46, 48]), ([66], [50, 46, 53])], [([65], [51, 46, 53])]]
        < 65536 ∧
    ∃ out,
      parallelRun [[([65], [49, 46, 48]), ([66], [50, 46, 53])], [([65], [51, 46, 53])]]
          = some out ∧
      singleRun [[([65], [49, 46, 48]), ([66], [50, 46, 53])], [([65], [51, 46, 53])]]
          = some out :=
  ⟨by decide, by decide,
    spec_C1 [[([65], [49, 46, 48]), ([66], [50, 46, 53])], [([65], [51, 46, 53])]]
      (by decide) (by decide)⟩
